import Mathlib

/-! RFC 5425 octet-counting framing scanner (`rfc5425/scanner.go`)

A shallow embedding of the scanner of `src/rfc5425/scanner.go`.

* Bytes are natural numbers (a Go `byte` is a value below 256; no byte arithmetic of the
  scanner can overflow, so no reduction modulo 256 is needed).
* The `bufio.Reader` is a cursor over the remaining input together with bufio's `lastByte`
  field, which is what `UnreadByte` puts back.
* Every function threads the scanner state explicitly and returns the new state.
* The allocation `make([]byte, 0, s.msglen)` of `scanSyslogMsg` does not return when `s.msglen`
  is above the largest capacity that can be allocated. That bound, `maxAlloc`, belongs to the Go
  runtime and the machine, not to the scanner, and is a parameter of the embedding; a call that
  panics returns nothing (`none`).
-/

namespace Rfc5425

/-! ## Tokens -/

/-- Modelled from the spec: the token kinds (`MSGLEN`, whitespace separator, message payload,
end-of-stream, illegal byte). Their declaration is not in `scanner.go`; the constructors carry
the names `scanner.go` uses for them. -/
inductive TokenType where
  | ILLEGAL
  | EOF
  | WS
  | MSGLEN
  | SYSLOGMSG
  deriving DecidableEq, Repr

/-- Modelled from the spec: a token is a kind `typ` and the raw bytes `lit` it was built from.
The declaration is not in `scanner.go`, which builds tokens as `Token{typ: ..., lit: ...}`; a
missing `lit` is the empty byte sequence. -/
structure Token where
  typ : TokenType
  lit : List Nat
  deriving DecidableEq, Repr

/-! ## Byte classes (`scanner.go`, lines 10-29) -/

/-- The marker byte `eof = byte(0)`. -/
def eof : Nat := 0

/-- The separator byte `ws = byte(32)`. -/
def ws : Nat := 32

/-- The source function `isDigit`: `ch >= 47 && ch <= 57`. -/
def isDigit (ch : Nat) : Bool := decide (ch ≥ 47) && decide (ch ≤ 57)

/-- The source function `isNonZeroDigit`: `ch >= 48 && ch <= 57`. -/
def isNonZeroDigit (ch : Nat) : Bool := decide (ch ≥ 48) && decide (ch ≤ 57)

/-- The source function `isWhitespace`: `ch == 32`. -/
def isWhitespace (ch : Nat) : Bool := decide (ch = 32)

/-! ## The buffered reader -/

/-- The part of a `bufio.Reader` the scanner can observe: the bytes not yet read and the
`lastByte` field (`-1` when there is no byte to unread). -/
structure Reader where
  rest : List Nat
  lastByte : Int
  deriving DecidableEq, Repr

/-- The method `bufio.Reader.ReadByte`: the next byte, remembered in `lastByte`; on an exhausted
source it reports an error (`none`) and leaves `lastByte` as it was. -/
def Reader.ReadByte (b : Reader) : Option Nat × Reader :=
  match b.rest with
  | [] => (none, b)
  | c :: t => (some c, { rest := t, lastByte := (c : Int) })

/-- The method `bufio.Reader.UnreadByte`: puts `lastByte` back in front of the unread bytes and
forgets it; with no `lastByte` it fails and changes nothing. -/
def Reader.UnreadByte (b : Reader) : Reader :=
  if b.lastByte < 0 then b
  else { rest := b.lastByte.toNat :: b.rest, lastByte := -1 }

/-! ## `strconv.ParseUint(s, 10, 64)` -/

/-- The two errors of `strconv.ParseUint`. -/
inductive NumError where
  | ErrSyntax
  | ErrRange
  deriving DecidableEq, Repr

/-- The largest `uint64`. -/
def maxUint64 : Nat := 2 ^ 64 - 1

/-- The constant `cutoff = maxUint64/10 + 1` of `ParseUint` in base 10. -/
def cutoff : Nat := maxUint64 / 10 + 1

/-- The helper `lower(c) = c | ('x' - 'X')` of `strconv`. -/
def lower (c : Nat) : Nat := c ||| 32

/-- The value of one character in `ParseUint`: a decimal digit, a letter (ten and up), or
nothing for any other byte. -/
def digitVal (c : Nat) : Option Nat :=
  if 48 ≤ c ∧ c ≤ 57 then some (c - 48)
  else if 97 ≤ lower c ∧ lower c ≤ 122 then some (lower c - 97 + 10)
  else none

/-- The loop of `ParseUint` over the bytes of the string in base 10 with 64 bits, `n` being the
value accumulated so far (a `uint64`, so its arithmetic is modulo `2^64`). -/
def parseUintLoop : List Nat → Nat → Nat × Option NumError
  | [], n => (n, none)
  | c :: cs, n =>
    match digitVal c with
    | none => (0, some NumError.ErrSyntax)
    | some d =>
      if d ≥ 10 then (0, some NumError.ErrSyntax)
      else if n ≥ cutoff then (maxUint64, some NumError.ErrRange)
      else
        let n10 := (n * 10) % 2 ^ 64
        let n1 := (n10 + d) % 2 ^ 64
        if n1 < n10 ∨ n1 > maxUint64 then (maxUint64, some NumError.ErrRange)
        else parseUintLoop cs n1

/-- The function `strconv.ParseUint(s, 10, 64)`: the value and the error, if any. The empty
string is a syntax error; a syntax error gives 0 and a range error gives `maxUint64`. -/
def ParseUint (s : List Nat) : Nat × Option NumError :=
  if s = [] then (0, some NumError.ErrSyntax) else parseUintLoop s 0

/-! ## The scanner (`scanner.go`, lines 31-148) -/

/-- The source type `Scanner`: the reader, the declared length `msglen` (a `uint64`) and the
flag `ready`. -/
structure Scanner where
  r : Reader
  msglen : Nat
  ready : Bool
  deriving DecidableEq, Repr

/-- The source function `NewScanner`, over a source that will deliver the bytes `input` and
then end: `msglen` and `ready` take their zero values. -/
def NewScanner (input : List Nat) : Scanner :=
  { r := { rest := input, lastByte := -1 }, msglen := 0, ready := false }

/-- The source method `read`: the next byte, or `eof` when `ReadByte` reports an error. -/
def Scanner.read (s : Scanner) : Nat × Scanner :=
  match s.r.ReadByte with
  | (none, r1) => (eof, { s with r := r1 })
  | (some b, r1) => (b, { s with r := r1 })

/-- The source method `unread`: `UnreadByte`, its error ignored. -/
def Scanner.unread (s : Scanner) : Scanner :=
  { s with r := s.r.UnreadByte }

/-- The `for` loop of `scanMsgLen` (lines 105-114), `buf` being the buffer so far. The loop has
no bound of its own; each turn that goes on consumes a byte, so the counter `fuel`, started
above the number of unread bytes, never runs out (`scanMsgLenLoop_fuel`). -/
def Scanner.scanMsgLenLoop : Nat → Scanner → List Nat → Scanner × List Nat
  | 0, s, buf => (s, buf)
  | fuel + 1, s, buf =>
    let b := s.read.1
    let s1 := s.read.2
    if b = eof then (s1, buf)
    else if !isDigit b then (s1.unread, buf)
    else Scanner.scanMsgLenLoop fuel s1 (buf ++ [b])

/-- The source method `scanMsgLen` (lines 98-123): the byte read first and the digits after it
make the token; `msglen` is what `ParseUint` returns, its error discarded. -/
def Scanner.scanMsgLen (s : Scanner) : Token × Scanner :=
  let b0 := s.read.1
  let s0 := s.read.2
  let res := Scanner.scanMsgLenLoop (s0.r.rest.length + 1) s0 [b0]
  (⟨TokenType.MSGLEN, res.2⟩, { res.1 with msglen := (ParseUint res.2).1 })

/-- The `for` loop of `scanSyslogMsg` (lines 129-140) with `k` turns left (`s.msglen - i`): it
returns the token of the early `return` if there is one, the buffer and the scanner. -/
def Scanner.scanSyslogMsgLoop : Nat → Scanner → List Nat → Option Token × List Nat × Scanner
  | 0, s, buf => (none, buf, s)
  | k + 1, s, buf =>
    let b := s.read.1
    let s1 := s.read.2
    if b = eof then (some ⟨TokenType.EOF, buf⟩, buf, s1)
    else Scanner.scanSyslogMsgLoop k s1 (buf ++ [b])

/-- The bound `maxAlloc` of the Go runtime on 64-bit Linux (48 address bits): `make` panics on
any capacity above it, whatever memory the machine has. It is the most generous value of the
parameter `maxAlloc` below. -/
def maxAlloc64 : Nat := 2 ^ 48

/-- The Go built-in `make([]byte, 0, n)`: an empty buffer of capacity `n`. The parameter
`maxAlloc` is the largest capacity for which the allocation succeeds where the scanner runs
(at most the runtime's bound, `maxAlloc64` on 64-bit Linux); above it `make` does not return
(`none`). What returns under one bound returns under every larger one (`scanN_mono`). -/
def makeBytes (maxAlloc n : Nat) : Option (List Nat) :=
  if n > maxAlloc then none else some []

/-- The source method `scanSyslogMsg` (lines 125-148): the allocation of the buffer, which may
panic, then the loop, then the reset and the `SYSLOGMSG` token. -/
def Scanner.scanSyslogMsg (maxAlloc : Nat) (s : Scanner) : Option (Token × Scanner) :=
  match makeBytes maxAlloc s.msglen with
  | none => none
  | some buf =>
    match Scanner.scanSyslogMsgLoop s.msglen s buf with
    | (some tok, _, s1) => some (tok, s1)
    | (none, buf1, s1) =>
      some (⟨TokenType.SYSLOGMSG, buf1⟩, { s1 with ready := false, msglen := 0 })

/-- The source method `Scan` (lines 60-96): the next token and the scanner after the call, or
nothing when the call panics in the allocation of `scanSyslogMsg`. -/
def Scanner.Scan (maxAlloc : Nat) (s : Scanner) : Option (Token × Scanner) :=
  let b := s.read.1
  let s1 := s.read.2
  if isNonZeroDigit b then
    some (Scanner.scanMsgLen { s1.unread with ready := false })
  else if b = eof then
    some (⟨TokenType.EOF, []⟩, { s1 with ready := false })
  else if b = ws then
    some (⟨TokenType.WS, [ws]⟩, { s1 with ready := true })
  else if s1.msglen > 0 ∧ s1.ready = true then
    Scanner.scanSyslogMsg maxAlloc s1.unread
  else
    some (⟨TokenType.ILLEGAL, [b]⟩, s1)

/-- The tokens of `k` successive `Scan` calls, in order, and the scanner after them; nothing
when one of the calls panics. -/
def scanN (maxAlloc : Nat) : Nat → Scanner → Option (List Token × Scanner)
  | 0, s => some ([], s)
  | k + 1, s =>
    match s.Scan maxAlloc with
    | none => none
    | some (tok, s1) =>
      match scanN maxAlloc k s1 with
      | none => none
      | some (toks, s2) => some (tok :: toks, s2)

/-- The bytes of `n` written in decimal (the ASCII codes of its digits). -/
def decimal (n : Nat) : List Nat := (Nat.toDigits 10 n).map Char.toNat

/-- The value of a string of decimal digits read from the left, starting from `n`. -/
def decimalValue (cs : List Nat) (n : Nat) : Nat :=
  cs.foldl (fun a c => a * 10 + (c - 48)) n

/-- The wire form of a list of messages `(n, content)`: each one as `"{n} {content}"`, one
after the other. -/
def encodeMessages : List (Nat × List Nat) → List Nat
  | [] => []
  | m :: ms => decimal m.1 ++ 32 :: (m.2 ++ encodeMessages ms)

/-- The tokens of a list of messages `(n, content)`: `MSGLEN("{n}")`, `WS(" ")` and
`SYSLOGMSG(content)` for each one, in order. -/
def messageTokens : List (Nat × List Nat) → List Token
  | [] => []
  | m :: ms =>
    ⟨TokenType.MSGLEN, decimal m.1⟩ :: ⟨TokenType.WS, [32]⟩ :: ⟨TokenType.SYSLOGMSG, m.2⟩ ::
      messageTokens ms

/-- The payloads of a list of tokens, one after the other. -/
def payloads : List Token → List Nat
  | [] => []
  | t :: ts => t.lit ++ payloads ts

/-! ## Reading and unreading -/

theorem read_nil (s : Scanner) (h : s.r.rest = []) : s.read = (eof, s) := by
  simp [Scanner.read, Reader.ReadByte, h]

theorem read_cons (s : Scanner) (c : Nat) (t : List Nat) (h : s.r.rest = c :: t) :
    s.read = (c, { s with r := { rest := t, lastByte := (c : Int) } }) := by
  simp [Scanner.read, Reader.ReadByte, h]

theorem unread_after_read (s : Scanner) (c : Nat) (t : List Nat) :
    Scanner.unread { s with r := { rest := t, lastByte := (c : Int) } } =
      { s with r := { rest := c :: t, lastByte := -1 } } := by
  have h : ¬ ((c : Int) < 0) := by omega
  simp [Scanner.unread, Reader.UnreadByte, h]

theorem isNonZeroDigit_eq_true (b : Nat) : isNonZeroDigit b = true ↔ 48 ≤ b ∧ b ≤ 57 := by
  simp [isNonZeroDigit]

theorem isDigit_eq_true (b : Nat) : isDigit b = true ↔ 47 ≤ b ∧ b ≤ 57 := by
  simp [isDigit]

/-- One `Scan` call on an exhausted source. -/
theorem Scan_nil (maxAlloc : Nat) (s : Scanner) (h : s.r.rest = []) :
    s.Scan maxAlloc = some (⟨TokenType.EOF, []⟩, { s with ready := false }) := by
  simp [Scanner.Scan, read_nil s h, eof, isNonZeroDigit]

/-! ## The length loop -/

theorem scanMsgLenLoop_succ (fuel : Nat) (s : Scanner) (buf : List Nat) :
    Scanner.scanMsgLenLoop (fuel + 1) s buf =
      if s.read.1 = eof then (s.read.2, buf)
      else if (!isDigit s.read.1) = true then (s.read.2.unread, buf)
      else Scanner.scanMsgLenLoop fuel s.read.2 (buf ++ [s.read.1]) := rfl

/-- The counter of the length loop never runs out: any counter above the number of unread bytes
gives the result of the counter `scanMsgLen` starts with. -/
theorem scanMsgLenLoop_fuel (fuel : Nat) : ∀ (s : Scanner) (buf : List Nat),
    s.r.rest.length < fuel →
    Scanner.scanMsgLenLoop fuel s buf = Scanner.scanMsgLenLoop (s.r.rest.length + 1) s buf := by
  induction fuel with
  | zero => intro s buf h; omega
  | succ fuel ih =>
    intro s buf h
    cases hr : s.r.rest with
    | nil => simp [scanMsgLenLoop_succ, read_nil s hr, eof]
    | cons c t =>
      rw [List.length_cons, scanMsgLenLoop_succ, scanMsgLenLoop_succ, read_cons s c t hr]
      by_cases h0 : c = eof
      · simp [h0]
      · by_cases hd : isDigit c = true
        · have ht : t.length < fuel := by rw [hr] at h; simpa using h
          have h1 := ih { s with r := { rest := t, lastByte := (c : Int) } } (buf ++ [c]) ht
          simp only [h0, hd, if_false, Bool.not_true]
          simpa using h1
        · simp [h0, hd]

/-- The length loop over a run of decimal digits `ds` followed by a byte `c` that is neither the
zero byte nor accepted by `isDigit`: the digits go to the buffer and `c` is pushed back. -/
theorem scanMsgLenLoop_digits (ds : List Nat) : ∀ (fuel : Nat) (s : Scanner) (buf : List Nat)
    (c : Nat) (tail : List Nat),
    s.r.rest = ds ++ c :: tail → (∀ d ∈ ds, 48 ≤ d ∧ d ≤ 57) → c ≠ 0 → ¬ (47 ≤ c ∧ c ≤ 57) →
    ds.length < fuel →
    Scanner.scanMsgLenLoop fuel s buf =
      ({ s with r := { rest := c :: tail, lastByte := -1 } }, buf ++ ds) := by
  induction ds with
  | nil =>
    intro fuel s buf c tail hr _ hc0 hcd hf
    obtain ⟨f, rfl⟩ : ∃ f, fuel = f + 1 := ⟨fuel - 1, by simp at hf; omega⟩
    have hd : isDigit c = false := by
      rw [← Bool.not_eq_true, isDigit_eq_true]; exact hcd
    simp [Scanner.scanMsgLenLoop, read_cons s c tail (by simpa using hr), eof, hc0, hd,
      unread_after_read]
  | cons d ds ih =>
    intro fuel s buf c tail hr hds hc0 hcd hf
    obtain ⟨f, rfl⟩ : ∃ f, fuel = f + 1 := ⟨fuel - 1, by simp at hf; omega⟩
    have hd48 := hds d (List.mem_cons_self d ds)
    have hd : isDigit d = true := by rw [isDigit_eq_true]; omega
    have hd0 : d ≠ 0 := by omega
    have hf1 : ds.length < f := by simpa using hf
    have h1 := ih f { s with r := { rest := ds ++ c :: tail, lastByte := (d : Int) } }
      (buf ++ [d]) c tail rfl (fun x hx => hds x (List.mem_cons_of_mem d hx)) hc0 hcd hf1
    simp [Scanner.scanMsgLenLoop, read_cons s d (ds ++ c :: tail) (by simpa using hr), eof, hd0,
      hd, h1]

/-! ## Parsing a length -/

theorem le_decimalValue (cs : List Nat) : ∀ n : Nat, n ≤ decimalValue cs n := by
  induction cs with
  | nil => intro n; simp [decimalValue]
  | cons c cs ih =>
    intro n
    have h := ih (n * 10 + (c - 48))
    simp only [decimalValue, List.foldl_cons] at h ⊢
    omega

/-- On a string of decimal digits whose value fits 64 bits `ParseUint` returns that value. -/
theorem parseUintLoop_digits (cs : List Nat) : ∀ n : Nat,
    (∀ c ∈ cs, 48 ≤ c ∧ c ≤ 57) → decimalValue cs n < 2 ^ 64 →
    parseUintLoop cs n = (decimalValue cs n, none) := by
  induction cs with
  | nil => intro n _ _; simp [parseUintLoop, decimalValue]
  | cons c cs ih =>
    intro n hcs hv
    have hc := hcs c (List.mem_cons_self c cs)
    have hle := le_decimalValue cs (n * 10 + (c - 48))
    have hv1 : decimalValue cs (n * 10 + (c - 48)) < 2 ^ 64 := by
      simpa [decimalValue] using hv
    have h1 := ih (n * 10 + (c - 48)) (fun x hx => hcs x (List.mem_cons_of_mem c hx)) hv1
    have hdv : digitVal c = some (c - 48) := by simp [digitVal, hc]
    norm_num at hv1
    have hmod : (n * 10 + (c - 48)) % 18446744073709551616 = n * 10 + (c - 48) := by omega
    have hmod10 : n * 10 % 18446744073709551616 = n * 10 := by omega
    have e1 : decimalValue (c :: cs) n = decimalValue cs (n * 10 + (c - 48)) := by
      simp [decimalValue]
    rw [e1]
    simp only [parseUintLoop, hdv]
    norm_num [cutoff, maxUint64]
    rw [hmod, hmod10, h1]
    have hn : ¬ 1844674407370955162 ≤ n := by omega
    have hc10 : ¬ 10 ≤ c - 48 := by omega
    have hor : ¬ (n * 10 + (c - 48) < n * 10 ∨ 18446744073709551615 < n * 10 + (c - 48)) := by
      omega
    rw [if_neg hc10, if_neg hn, if_neg hor]

/-! ## Decimal rendering -/

theorem digitChar_toNat (m : Nat) (h : m < 10) : (Nat.digitChar m).toNat = m + 48 := by
  interval_cases m <;> rfl

theorem decimalValue_append (xs ys : List Nat) (n : Nat) :
    decimalValue (xs ++ ys) n = decimalValue ys (decimalValue xs n) := by
  simp [decimalValue, List.foldl_append]

theorem toDigitsCore_decimal (fuel : Nat) : ∀ (n : Nat) (acc : List Char),
    n < fuel → 1 ≤ n →
    ∃ d ds, (Nat.toDigitsCore 10 fuel n acc).map Char.toNat = d :: (ds ++ acc.map Char.toNat) ∧
      49 ≤ d ∧ d ≤ 57 ∧ (∀ c ∈ ds, 48 ≤ c ∧ c ≤ 57) ∧ decimalValue (d :: ds) 0 = n := by
  induction fuel with
  | zero => intro n acc h; omega
  | succ fuel ih =>
    intro n acc hlt hpos
    have hm : n % 10 < 10 := Nat.mod_lt _ (by decide)
    by_cases h0 : n / 10 = 0
    · have hn : n < 10 := by omega
      have hmod : n % 10 = n := Nat.mod_eq_of_lt hn
      refine ⟨n + 48, [], ?_, by omega, by omega, by simp, by simp [decimalValue]⟩
      simp [Nat.toDigitsCore, h0, hmod, digitChar_toNat n hn]
    · obtain ⟨d, ds, he, hd1, hd2, hds, hval⟩ :=
        ih (n / 10) (Nat.digitChar (n % 10) :: acc) (by omega) (by omega)
      refine ⟨d, ds ++ [n % 10 + 48], ?_, hd1, hd2, ?_, ?_⟩
      · simp only [Nat.toDigitsCore, h0, if_false]
        rw [he]
        simp [digitChar_toNat (n % 10) hm]
      · intro c hc
        rcases List.mem_append.mp hc with h | h
        · exact hds c h
        · have : c = n % 10 + 48 := by simpa using h
          omega
      · have e : d :: (ds ++ [n % 10 + 48]) = (d :: ds) ++ [n % 10 + 48] := by simp
        rw [e, decimalValue_append, hval]
        simp [decimalValue]
        omega

/-- The decimal rendering of `n >= 1`: a first digit in `'1'..'9'`, then digits `'0'..'9'`, and
read back as a number it is `n`. -/
theorem decimal_spec (n : Nat) (h : 1 ≤ n) :
    ∃ d ds, decimal n = d :: ds ∧ 49 ≤ d ∧ d ≤ 57 ∧ (∀ c ∈ ds, 48 ≤ c ∧ c ≤ 57) ∧
      decimalValue (d :: ds) 0 = n := by
  obtain ⟨d, ds, he, h1, h2, h3, h4⟩ := toDigitsCore_decimal (n + 1) n [] (by omega) h
  exact ⟨d, ds, by simpa [decimal, Nat.toDigits] using he, h1, h2, h3, h4⟩

/-! ## One `Scan` call -/

/-- One `Scan` call on a source whose next byte is `b`, with `read` and `unread` carried out. -/
theorem Scan_cons (maxAlloc : Nat) (s : Scanner) (b : Nat) (t : List Nat)
    (h : s.r.rest = b :: t) :
    s.Scan maxAlloc =
      if isNonZeroDigit b = true then
        some (Scanner.scanMsgLen
          { r := { rest := b :: t, lastByte := -1 }, msglen := s.msglen, ready := false })
      else if b = eof then
        some (⟨TokenType.EOF, []⟩,
          { r := { rest := t, lastByte := (b : Int) }, msglen := s.msglen, ready := false })
      else if b = ws then
        some (⟨TokenType.WS, [ws]⟩,
          { r := { rest := t, lastByte := (b : Int) }, msglen := s.msglen, ready := true })
      else if s.msglen > 0 ∧ s.ready = true then
        Scanner.scanSyslogMsg maxAlloc
          { r := { rest := b :: t, lastByte := -1 }, msglen := s.msglen, ready := s.ready }
      else
        some (⟨TokenType.ILLEGAL, [b]⟩,
          { r := { rest := t, lastByte := (b : Int) }, msglen := s.msglen, ready := s.ready }) := by
  simp only [Scanner.Scan, read_cons s b t h, unread_after_read]

/-- A separator byte gives `WS` and sets `ready`. -/
theorem Scan_ws (maxAlloc : Nat) (s : Scanner) (t : List Nat) (h : s.r.rest = 32 :: t) :
    s.Scan maxAlloc = some (⟨TokenType.WS, [32]⟩,
      { r := { rest := t, lastByte := 32 }, msglen := s.msglen, ready := true }) := by
  rw [Scan_cons maxAlloc s 32 t h]
  simp [isNonZeroDigit, eof, ws]

/-- A length in decimal followed by a byte `c` that ends it: `Scan` returns the `MSGLEN` token
with the digits, stores the length and leaves `c` unread. -/
theorem Scan_decimal (maxAlloc : Nat) (s : Scanner) (n c : Nat) (t : List Nat) (h1 : 1 ≤ n)
    (h2 : n < 2 ^ 64) (hr : s.r.rest = decimal n ++ c :: t) (hc0 : c ≠ 0)
    (hcd : ¬ (47 ≤ c ∧ c ≤ 57)) :
    s.Scan maxAlloc = some (⟨TokenType.MSGLEN, decimal n⟩,
      { r := { rest := c :: t, lastByte := -1 }, msglen := n, ready := false }) := by
  obtain ⟨d, ds, he, hd1, hd2, hds, hval⟩ := decimal_spec n h1
  rw [he] at hr ⊢
  have hnz : isNonZeroDigit d = true := by rw [isNonZeroDigit_eq_true]; omega
  have hall : ∀ x ∈ d :: ds, 48 ≤ x ∧ x ≤ 57 := by
    intro x hx
    rcases List.mem_cons.mp hx with h | h
    · omega
    · exact hds x h
  have hp : ParseUint (d :: ds) = (n, none) := by
    have := parseUintLoop_digits (d :: ds) 0 hall (by rw [hval]; exact h2)
    simpa [ParseUint, hval] using this
  rw [Scan_cons maxAlloc s d (ds ++ c :: t) (by simpa using hr), if_pos hnz]
  have hloop := scanMsgLenLoop_digits ds (ds.length + (t.length + 1) + 1)
    { r := { rest := ds ++ c :: t, lastByte := (d : Int) }, msglen := s.msglen, ready := false }
    [d] c t rfl hds hc0 hcd (by omega)
  have hread := read_cons
    { r := { rest := d :: (ds ++ c :: t), lastByte := -1 }, msglen := s.msglen, ready := false }
    d (ds ++ c :: t) rfl
  simp only [Scanner.scanMsgLen, hread, List.length_append,
    List.length_cons, hloop, List.singleton_append, hp]

/-! ## The payload loop -/

theorem scanSyslogMsgLoop_succ (k : Nat) (s : Scanner) (buf : List Nat) :
    Scanner.scanSyslogMsgLoop (k + 1) s buf =
      if s.read.1 = eof then (some ⟨TokenType.EOF, buf⟩, buf, s.read.2)
      else Scanner.scanSyslogMsgLoop k s.read.2 (buf ++ [s.read.1]) := rfl

/-- The payload loop with all `k` bytes present and none of them zero: no early return, the
buffer gains exactly these bytes, and only the reader has changed. -/
theorem scanSyslogMsgLoop_full (content : List Nat) : ∀ (k : Nat) (s : Scanner) (buf t : List Nat),
    s.r.rest = content ++ t → content.length = k → (∀ b ∈ content, b ≠ 0) →
    ∃ lb, Scanner.scanSyslogMsgLoop k s buf =
      (none, buf ++ content, { s with r := { rest := t, lastByte := lb } }) := by
  induction content with
  | nil =>
    intro k s buf t hr hk _
    subst hk
    refine ⟨s.r.lastByte, ?_⟩
    have : s.r.rest = t := by simpa using hr
    simp [Scanner.scanSyslogMsgLoop, ← this]
  | cons b bs ih =>
    intro k s buf t hr hk hz
    subst hk
    have hb : b ≠ 0 := hz b (List.mem_cons_self b bs)
    obtain ⟨lb, h⟩ := ih bs.length
      { s with r := { rest := bs ++ t, lastByte := (b : Int) } } (buf ++ [b]) t rfl rfl
      (fun x hx => hz x (List.mem_cons_of_mem b hx))
    refine ⟨lb, ?_⟩
    rw [List.length_cons, scanSyslogMsgLoop_succ, read_cons s b (bs ++ t) (by simpa using hr)]
    simp [eof, hb, h]

/-- The payload loop with fewer than `k` bytes left and none of them zero: it returns early
with `EOF` carrying the bytes that were left. -/
theorem scanSyslogMsgLoop_short (rest : List Nat) : ∀ (k : Nat) (s : Scanner) (buf : List Nat),
    s.r.rest = rest → rest.length < k → (∀ b ∈ rest, b ≠ 0) →
    ∃ lb, Scanner.scanSyslogMsgLoop k s buf =
      (some ⟨TokenType.EOF, buf ++ rest⟩, buf ++ rest,
        { s with r := { rest := [], lastByte := lb } }) := by
  induction rest with
  | nil =>
    intro k s buf hr hk _
    obtain ⟨j, rfl⟩ : ∃ j, k = j + 1 := ⟨k - 1, by simp at hk; omega⟩
    refine ⟨s.r.lastByte, ?_⟩
    rw [scanSyslogMsgLoop_succ, read_nil s hr]
    simp [← hr]
  | cons b bs ih =>
    intro k s buf hr hk hz
    obtain ⟨j, rfl⟩ : ∃ j, k = j + 1 := ⟨k - 1, by simp at hk; omega⟩
    have hb : b ≠ 0 := hz b (List.mem_cons_self b bs)
    obtain ⟨lb, h⟩ := ih j
      { s with r := { rest := bs, lastByte := (b : Int) } } (buf ++ [b]) rfl
      (by simpa using hk) (fun x hx => hz x (List.mem_cons_of_mem b hx))
    refine ⟨lb, ?_⟩
    rw [scanSyslogMsgLoop_succ, read_cons s b bs hr]
    simp [eof, hb, h]

/-- Whatever the input, the payload loop only adds to the buffer the bytes it takes from the
source, in order; it leaves `msglen` and `ready` alone; an early return is an `EOF` token with
the buffer, and without one exactly `k` bytes were taken. -/
theorem scanSyslogMsgLoop_inv (k : Nat) : ∀ (s : Scanner) (buf : List Nat),
    ∃ taken tok s1, Scanner.scanSyslogMsgLoop k s buf = (tok, buf ++ taken, s1) ∧
      s1.msglen = s.msglen ∧ s1.ready = s.ready ∧
      (tok = none ∨ tok = some ⟨TokenType.EOF, buf ++ taken⟩) ∧
      (tok = none → taken.length = k ∧ s.r.rest = taken ++ s1.r.rest) ∧
      (∀ b ∈ taken, b ≠ 0) ∧ taken.length ≤ k := by
  induction k with
  | zero =>
    intro s buf
    exact ⟨[], none, s, by simp [Scanner.scanSyslogMsgLoop], rfl, rfl, Or.inl rfl,
      fun _ => ⟨rfl, by simp⟩, by simp, by simp⟩
  | succ k ih =>
    intro s buf
    cases hr : s.r.rest with
    | nil =>
      refine ⟨[], some ⟨TokenType.EOF, buf⟩, s, ?_, rfl, rfl, Or.inr (by simp), ?_, by simp,
        by simp⟩
      · rw [scanSyslogMsgLoop_succ, read_nil s hr]; simp
      · intro h; cases h
    | cons b t =>
      by_cases hb : b = 0
      · refine ⟨[], some ⟨TokenType.EOF, buf⟩,
          { s with r := { rest := t, lastByte := (b : Int) } }, ?_, rfl, rfl, Or.inr (by simp),
          ?_, by simp, by simp⟩
        · rw [scanSyslogMsgLoop_succ, read_cons s b t hr]; simp [eof, hb]
        · intro h; cases h
      · obtain ⟨taken, tok, s1, he, hm, hrd, htok, hnone, hz, hlen⟩ :=
          ih { s with r := { rest := t, lastByte := (b : Int) } } (buf ++ [b])
        refine ⟨b :: taken, tok, s1, ?_, hm, hrd, ?_, ?_, ?_, by simpa using hlen⟩
        · rw [scanSyslogMsgLoop_succ, read_cons s b t hr]
          simp [eof, hb, he]
        · simpa using htok
        · intro h
          obtain ⟨h1, h2⟩ := hnone h
          exact ⟨by simp [h1], by simpa using h2⟩
        · intro x hx
          rcases List.mem_cons.mp hx with h | h
          · rw [h]; exact hb
          · exact hz x h

/-! ## Payload scans -/

/-- A payload scan with `msglen` above the allocation bound panics. -/
theorem scanSyslogMsg_none (maxAlloc : Nat) (s : Scanner) (h : maxAlloc < s.msglen) :
    s.scanSyslogMsg maxAlloc = none := by
  simp [Scanner.scanSyslogMsg, makeBytes, h]

/-- A payload scan with `msglen` within the allocation bound: the loop started on an empty
buffer, then the early token or the reset and `SYSLOGMSG`. -/
theorem scanSyslogMsg_some (maxAlloc : Nat) (s : Scanner) (h : s.msglen ≤ maxAlloc) :
    s.scanSyslogMsg maxAlloc =
      match Scanner.scanSyslogMsgLoop s.msglen s [] with
      | (some tok, _, s1) => some (tok, s1)
      | (none, buf1, s1) =>
        some (⟨TokenType.SYSLOGMSG, buf1⟩, { s1 with ready := false, msglen := 0 }) := by
  simp [Scanner.scanSyslogMsg, makeBytes, Nat.not_lt.mpr h]

/-- A payload scan over a source that holds the whole payload `content` (no zero byte in it):
`SYSLOGMSG` with exactly `content`, the rest `t` left unread, and the state reset. -/
theorem scanSyslogMsg_full (maxAlloc : Nat) (s : Scanner) (content t : List Nat)
    (hle : s.msglen ≤ maxAlloc) (hr : s.r.rest = content ++ t)
    (hlen : content.length = s.msglen) (hz : ∀ b ∈ content, b ≠ 0) :
    ∃ lb, s.scanSyslogMsg maxAlloc = some (⟨TokenType.SYSLOGMSG, content⟩,
      { r := { rest := t, lastByte := lb }, msglen := 0, ready := false }) := by
  obtain ⟨lb, h⟩ := scanSyslogMsgLoop_full content s.msglen s [] t hr hlen hz
  exact ⟨lb, by rw [scanSyslogMsg_some maxAlloc s hle, h]; simp⟩

/-- A payload scan over a source that holds fewer bytes than declared (no zero byte among
them): `EOF` carrying these bytes, with `msglen` and `ready` as they were. -/
theorem scanSyslogMsg_short (maxAlloc : Nat) (s : Scanner) (hle : s.msglen ≤ maxAlloc)
    (hlen : s.r.rest.length < s.msglen) (hz : ∀ b ∈ s.r.rest, b ≠ 0) :
    ∃ lb, s.scanSyslogMsg maxAlloc = some (⟨TokenType.EOF, s.r.rest⟩,
      { r := { rest := [], lastByte := lb }, msglen := s.msglen, ready := s.ready }) := by
  obtain ⟨lb, h⟩ := scanSyslogMsgLoop_short s.r.rest s.msglen s [] rfl hlen hz
  exact ⟨lb, by rw [scanSyslogMsg_some maxAlloc s hle, h]; simp⟩

/-- One `Scan` call in a state that awaits a payload, on a byte that is neither zero, nor a
space, nor in `'0'..'9'`: the payload scan runs on the source with that byte put back. -/
theorem Scan_payload (maxAlloc : Nat) (s : Scanner) (b : Nat) (t : List Nat)
    (hr : s.r.rest = b :: t) (hm : 0 < s.msglen) (hrd : s.ready = true) (hb0 : b ≠ 0)
    (hb32 : b ≠ 32) (hbd : ¬ (48 ≤ b ∧ b ≤ 57)) :
    s.Scan maxAlloc = Scanner.scanSyslogMsg maxAlloc
      { r := { rest := b :: t, lastByte := -1 }, msglen := s.msglen, ready := s.ready } := by
  have hnz : ¬ (isNonZeroDigit b = true) := by rw [isNonZeroDigit_eq_true]; exact hbd
  rw [Scan_cons maxAlloc s b t hr, if_neg hnz, if_neg (by simpa [eof] using hb0),
    if_neg (by simpa [ws] using hb32), if_pos ⟨hm, hrd⟩]

/-! ## Successive `Scan` calls -/

theorem scanN_succ_some (maxAlloc k : Nat) (s s1 s2 : Scanner) (tok : Token)
    (toks : List Token) (h1 : s.Scan maxAlloc = some (tok, s1))
    (h2 : scanN maxAlloc k s1 = some (toks, s2)) :
    scanN maxAlloc (k + 1) s = some (tok :: toks, s2) := by
  simp [scanN, h1, h2]

theorem scanN_succ_none (maxAlloc k : Nat) (s : Scanner) (h1 : s.Scan maxAlloc = none) :
    scanN maxAlloc (k + 1) s = none := by
  simp [scanN, h1]

theorem scanN_succ_none_later (maxAlloc k : Nat) (s s1 : Scanner) (tok : Token)
    (h1 : s.Scan maxAlloc = some (tok, s1)) (h2 : scanN maxAlloc k s1 = none) :
    scanN maxAlloc (k + 1) s = none := by
  simp [scanN, h1, h2]

/-- When `k + 1` calls return, the first call returns and the `k` calls after it return. -/
theorem scanN_succ_inv (maxAlloc k : Nat) (s s2 : Scanner) (all : List Token)
    (h : scanN maxAlloc (k + 1) s = some (all, s2)) :
    ∃ tok s1 toks, s.Scan maxAlloc = some (tok, s1) ∧ scanN maxAlloc k s1 = some (toks, s2) ∧
      all = tok :: toks := by
  cases h1 : s.Scan maxAlloc with
  | none => rw [scanN_succ_none maxAlloc k s h1] at h; cases h
  | some r =>
    obtain ⟨tok, s1⟩ := r
    cases h2 : scanN maxAlloc k s1 with
    | none => rw [scanN_succ_none_later maxAlloc k s s1 tok h1 h2] at h; cases h
    | some r2 =>
      obtain ⟨toks, s3⟩ := r2
      rw [scanN_succ_some maxAlloc k s s1 s3 tok toks h1 h2] at h
      simp only [Option.some.injEq, Prod.mk.injEq] at h
      obtain ⟨h3, h4⟩ := h
      subst h4
      exact ⟨tok, s1, toks, rfl, h2, h3.symm⟩

/-- When `a` calls return, `a + b` calls are these followed by `b` calls from where they end. -/
theorem scanN_add (maxAlloc a : Nat) : ∀ (b : Nat) (s s1 : Scanner) (t1 : List Token),
    scanN maxAlloc a s = some (t1, s1) →
    scanN maxAlloc (a + b) s = (scanN maxAlloc b s1).map (fun r => (t1 ++ r.1, r.2)) := by
  induction a with
  | zero =>
    intro b s s1 t1 h
    simp only [scanN, Option.some.injEq, Prod.mk.injEq] at h
    obtain ⟨h1, h2⟩ := h
    subst h1 h2
    cases hb : scanN maxAlloc b s with
    | none => simp [hb]
    | some r => simp [hb]
  | succ a ih =>
    intro b s s1 t1 h
    obtain ⟨tok, s0, toks, e1, e2, e3⟩ := scanN_succ_inv maxAlloc a s s1 t1 h
    have e : a + 1 + b = (a + b) + 1 := by omega
    rw [e]
    have hi := ih b s0 s1 toks e2
    cases hb : scanN maxAlloc b s1 with
    | none =>
      rw [hb] at hi
      rw [scanN_succ_none_later maxAlloc (a + b) s s0 tok e1 (by simpa using hi)]
      simp
    | some r =>
      rw [hb] at hi
      rw [scanN_succ_some maxAlloc (a + b) s s0 r.2 tok (toks ++ r.1) e1 (by simpa using hi)]
      simp [e3]

/-- When `a` calls do not all return, neither do `a + b` calls. -/
theorem scanN_add_none (maxAlloc a : Nat) : ∀ (b : Nat) (s : Scanner),
    scanN maxAlloc a s = none → scanN maxAlloc (a + b) s = none := by
  induction a with
  | zero => intro b s h; simp [scanN] at h
  | succ a ih =>
    intro b s h
    have e : a + 1 + b = (a + b) + 1 := by omega
    rw [e]
    cases h1 : s.Scan maxAlloc with
    | none => exact scanN_succ_none maxAlloc (a + b) s h1
    | some r =>
      obtain ⟨tok, s1⟩ := r
      cases h2 : scanN maxAlloc a s1 with
      | none => exact scanN_succ_none_later maxAlloc (a + b) s s1 tok h1 (ih b s1 h2)
      | some r2 =>
        rw [scanN_succ_some maxAlloc a s s1 r2.2 tok r2.1 h1 h2] at h
        cases h

/-- Three `Scan` calls, from any state, over one message `"{n} {content}"` followed by `t`,
where `n` is within the allocation bound and `content` has no zero byte and starts with a byte
that is neither a space nor in `'0'..'9'`: the three tokens of the message, `t` left unread,
and the state reset. -/
theorem scanN_message (maxAlloc : Nat) (s : Scanner) (n : Nat) (content t : List Nat)
    (h1 : 1 ≤ n) (h2 : n < 2 ^ 64) (hle : n ≤ maxAlloc) (hlen : content.length = n)
    (hz : ∀ b ∈ content, b ≠ 0)
    (hfirst : ∀ b, content.head? = some b → b ≠ 32 ∧ ¬ (48 ≤ b ∧ b ≤ 57))
    (hr : s.r.rest = decimal n ++ 32 :: (content ++ t)) :
    ∃ lb, scanN maxAlloc 3 s = some
      ([⟨TokenType.MSGLEN, decimal n⟩, ⟨TokenType.WS, [32]⟩, ⟨TokenType.SYSLOGMSG, content⟩],
        { r := { rest := t, lastByte := lb }, msglen := 0, ready := false }) := by
  cases content with
  | nil => simp at hlen; omega
  | cons b bs =>
    have hb0 : b ≠ 0 := hz b (List.mem_cons_self b bs)
    obtain ⟨hb32, hbd⟩ := hfirst b rfl
    have e1 := Scan_decimal maxAlloc s n 32 (b :: bs ++ t) h1 h2 hr (by decide) (by decide)
    have e2 := Scan_ws maxAlloc
      { r := { rest := 32 :: (b :: bs ++ t), lastByte := -1 }, msglen := n, ready := false }
      (b :: bs ++ t) rfl
    have e3 := Scan_payload maxAlloc
      { r := { rest := b :: (bs ++ t), lastByte := 32 }, msglen := n, ready := true }
      b (bs ++ t) rfl (by simpa using h1) rfl hb0 hb32 hbd
    obtain ⟨lb, e4⟩ := scanSyslogMsg_full maxAlloc
      { r := { rest := b :: (bs ++ t), lastByte := -1 }, msglen := n, ready := true }
      (b :: bs) t hle rfl hlen hz
    refine ⟨lb, ?_⟩
    rw [e4] at e3
    exact scanN_succ_some maxAlloc 2 _ _ _ _ _ e1
      (scanN_succ_some maxAlloc 1 _ _ _ _ _ e2
        (scanN_succ_some maxAlloc 0 _ _ _ _ _ e3 rfl))

/-- Three `Scan` calls over a length `n` above the allocation bound, a space and a payload
byte that is neither zero, nor a space, nor in `'0'..'9'`: the third call panics. -/
theorem scanN_message_panics (maxAlloc : Nat) (s : Scanner) (n b : Nat) (t : List Nat)
    (h1 : 1 ≤ n) (h2 : n < 2 ^ 64) (hgt : maxAlloc < n) (hb0 : b ≠ 0) (hb32 : b ≠ 32)
    (hbd : ¬ (48 ≤ b ∧ b ≤ 57)) (hr : s.r.rest = decimal n ++ 32 :: b :: t) :
    scanN maxAlloc 3 s = none := by
  have e1 := Scan_decimal maxAlloc s n 32 (b :: t) h1 h2 hr (by decide) (by decide)
  have e2 := Scan_ws maxAlloc
    { r := { rest := 32 :: b :: t, lastByte := -1 }, msglen := n, ready := false }
    (b :: t) rfl
  have e3 := Scan_payload maxAlloc
    { r := { rest := b :: t, lastByte := 32 }, msglen := n, ready := true }
    b t rfl (by simpa using h1) rfl hb0 hb32 hbd
  rw [scanSyslogMsg_none maxAlloc _ (by simpa using hgt)] at e3
  exact scanN_succ_none_later maxAlloc 2 _ _ _ e1
    (scanN_succ_none_later maxAlloc 1 _ _ _ e2 (scanN_succ_none maxAlloc 0 _ e3))

/-! ## What a `Scan` call does to the state -/

theorem read_ready (s : Scanner) : s.read.2.ready = s.ready := by
  cases hr : s.r.rest with
  | nil => rw [read_nil s hr]
  | cons c t => rw [read_cons s c t hr]

/-- The length loop leaves `ready` alone. -/
theorem scanMsgLenLoop_ready (fuel : Nat) : ∀ (s : Scanner) (buf : List Nat),
    (Scanner.scanMsgLenLoop fuel s buf).1.ready = s.ready := by
  induction fuel with
  | zero => intro s buf; rfl
  | succ fuel ih =>
    intro s buf
    rw [scanMsgLenLoop_succ]
    split_ifs
    · exact read_ready s
    · exact read_ready s
    · rw [ih]; exact read_ready s

/-- The length scan returns a `MSGLEN` token and leaves `ready` alone. -/
theorem scanMsgLen_typ_ready (s : Scanner) :
    s.scanMsgLen.1.typ = TokenType.MSGLEN ∧ s.scanMsgLen.2.ready = s.ready := by
  refine ⟨rfl, ?_⟩
  simp only [Scanner.scanMsgLen]
  rw [scanMsgLenLoop_ready]
  exact read_ready s

/-- The payload scan, on any input, when it returns: `msglen` was within the allocation bound,
and either the token is `SYSLOGMSG` with exactly `msglen` bytes, the next ones of the source,
and the state is reset; or it is `EOF` with the bytes before the end of the source or the first
zero byte, `msglen` and `ready` left as they were. -/
theorem scanSyslogMsg_cases (maxAlloc : Nat) (s s1 : Scanner) (tok : Token)
    (h : s.scanSyslogMsg maxAlloc = some (tok, s1)) :
    s.msglen ≤ maxAlloc ∧
    ((tok.typ = TokenType.SYSLOGMSG ∧ tok.lit.length = s.msglen ∧
      s.r.rest = tok.lit ++ s1.r.rest ∧ s1.msglen = 0 ∧ s1.ready = false) ∨
     (tok.typ = TokenType.EOF ∧ s1.msglen = s.msglen ∧ s1.ready = s.ready ∧
      (∀ b t, s.r.rest = b :: t → b ≠ 0 → 0 < s.msglen → tok.lit ≠ []))) := by
  by_cases hgt : maxAlloc < s.msglen
  · rw [scanSyslogMsg_none maxAlloc s hgt] at h; cases h
  · have hle : s.msglen ≤ maxAlloc := Nat.le_of_not_lt hgt
    refine ⟨hle, ?_⟩
    rw [scanSyslogMsg_some maxAlloc s hle] at h
    obtain ⟨taken, tk, s2, he, hm, hrd, htok, hnone, _, _⟩ := scanSyslogMsgLoop_inv s.msglen s []
    rcases htok with ht | ht
    · subst ht
      obtain ⟨h1, h2⟩ := hnone rfl
      rw [he] at h
      simp only [List.nil_append, Option.some.injEq, Prod.mk.injEq] at h
      obtain ⟨h3, h4⟩ := h
      subst h3 h4
      left
      exact ⟨rfl, h1, h2, rfl, rfl⟩
    · subst ht
      have he0 := he
      rw [he] at h
      simp only [List.nil_append, Option.some.injEq, Prod.mk.injEq] at h
      obtain ⟨h3, h4⟩ := h
      subst h3 h4
      right
      refine ⟨rfl, hm, hrd, ?_⟩
      intro b t hr hb hpos
      obtain ⟨j, hj⟩ : ∃ j, s.msglen = j + 1 := ⟨s.msglen - 1, by omega⟩
      have hstep := scanSyslogMsgLoop_succ j s []
      rw [read_cons s b t hr] at hstep
      simp only [eof, hb, if_false, List.nil_append] at hstep
      have hl := (congrArg (fun m => Scanner.scanSyslogMsgLoop m s []) hj).trans hstep
      simp only at hl
      obtain ⟨taken2, tok2, s3, he2, -, -, -, -, -, -⟩ := scanSyslogMsgLoop_inv j
        { s with r := { rest := t, lastByte := (b : Int) } } [b]
      rw [hl, he2] at he0
      have : [b] ++ taken2 = taken := by
        have := congrArg (fun x => x.2.1) he0
        simpa using this
      show taken ≠ []
      rw [← this]
      simp

/-- A case analysis of one `Scan` call that returns `(tok, s1)`: the length scan, the end, the
separator, the payload scan, or the illegal byte. -/
theorem Scan_cases (maxAlloc : Nat) (s s1 : Scanner) (tok : Token)
    (h : s.Scan maxAlloc = some (tok, s1)) :
    (∃ b t, s.r.rest = b :: t ∧ isNonZeroDigit b = true ∧ (tok, s1) = Scanner.scanMsgLen
        { r := { rest := b :: t, lastByte := -1 }, msglen := s.msglen, ready := false }) ∨
    (tok = ⟨TokenType.EOF, []⟩ ∧ s1.ready = false ∧ s1.msglen = s.msglen ∧
      (s.r.rest = [] ∧ s1.r.rest = [] ∨ s.r.rest = 0 :: s1.r.rest)) ∨
    (tok = ⟨TokenType.WS, [32]⟩ ∧ s1.ready = true ∧ s1.msglen = s.msglen ∧
      s.r.rest = 32 :: s1.r.rest) ∨
    (∃ b t, s.r.rest = b :: t ∧ b ≠ 0 ∧ 0 < s.msglen ∧ s.ready = true ∧
      Scanner.scanSyslogMsg maxAlloc
        { r := { rest := b :: t, lastByte := -1 }, msglen := s.msglen, ready := s.ready }
        = some (tok, s1)) ∨
    (∃ b, tok = ⟨TokenType.ILLEGAL, [b]⟩ ∧ s.r.rest = b :: s1.r.rest ∧ s1.ready = s.ready ∧
      s1.msglen = s.msglen ∧ (s.msglen = 0 ∨ s.ready = false)) := by
  cases hr : s.r.rest with
  | nil =>
    rw [Scan_nil maxAlloc s hr] at h
    simp only [Option.some.injEq, Prod.mk.injEq] at h
    obtain ⟨h1, h2⟩ := h
    subst h1 h2
    exact Or.inr (Or.inl ⟨rfl, rfl, rfl, Or.inl ⟨rfl, hr⟩⟩)
  | cons b t =>
    rw [Scan_cons maxAlloc s b t hr] at h
    by_cases c1 : isNonZeroDigit b = true
    · rw [if_pos c1] at h
      simp only [Option.some.injEq] at h
      exact Or.inl ⟨b, t, rfl, c1, h.symm⟩
    · rw [if_neg c1] at h
      by_cases c2 : b = eof
      · rw [if_pos c2] at h
        simp only [Option.some.injEq, Prod.mk.injEq] at h
        obtain ⟨h1, h2⟩ := h
        subst h1 h2
        have : b = 0 := c2
        exact Or.inr (Or.inl ⟨rfl, rfl, rfl, Or.inr (by simp [this])⟩)
      · rw [if_neg c2] at h
        by_cases c3 : b = ws
        · rw [if_pos c3] at h
          simp only [Option.some.injEq, Prod.mk.injEq] at h
          obtain ⟨h1, h2⟩ := h
          subst h1 h2
          have : b = 32 := c3
          exact Or.inr (Or.inr (Or.inl ⟨rfl, rfl, rfl, by simp [this]⟩))
        · rw [if_neg c3] at h
          by_cases c4 : s.msglen > 0 ∧ s.ready = true
          · rw [if_pos c4] at h
            exact Or.inr (Or.inr (Or.inr (Or.inl
              ⟨b, t, rfl, by simpa [eof] using c2, c4.1, c4.2, h⟩)))
          · rw [if_neg c4] at h
            simp only [Option.some.injEq, Prod.mk.injEq] at h
            obtain ⟨h1, h2⟩ := h
            subst h1 h2
            refine Or.inr (Or.inr (Or.inr (Or.inr ⟨b, rfl, rfl, rfl, rfl, ?_⟩)))
            by_contra hc
            apply c4
            constructor
            · rcases Nat.eq_zero_or_pos s.msglen with h0 | h0
              · exact absurd (Or.inl h0) hc
              · exact h0
            · cases hrd : s.ready
              · exact absurd (Or.inr hrd) hc
              · rfl

/-- A `SYSLOGMSG` token comes from the payload scan only: the state held `ready` and a
positive `msglen` within the allocation bound, the payload is the next `msglen` bytes of the
source, and the state is reset. -/
theorem Scan_syslogmsg_origin (maxAlloc : Nat) (s s1 : Scanner) (tok : Token)
    (h : s.Scan maxAlloc = some (tok, s1)) (ht : tok.typ = TokenType.SYSLOGMSG) :
    0 < s.msglen ∧ s.msglen ≤ maxAlloc ∧ s.ready = true ∧ tok.lit.length = s.msglen ∧
    s.r.rest = tok.lit ++ s1.r.rest ∧ s1.msglen = 0 ∧ s1.ready = false := by
  rcases Scan_cases maxAlloc s s1 tok h with
    ⟨b, t, -, -, e⟩ | ⟨e, -⟩ | ⟨e, -⟩ | ⟨b, t, hr, -, hm, hrd, e⟩ | ⟨b, e, -⟩
  · have : tok.typ = TokenType.MSGLEN := by
      have := congrArg (fun x => x.1.typ) e
      simpa [(scanMsgLen_typ_ready _).1] using this
    rw [this] at ht; cases ht
  · rw [e] at ht; cases ht
  · rw [e] at ht; cases ht
  · obtain ⟨hle, hc⟩ := scanSyslogMsg_cases maxAlloc _ s1 tok e
    rcases hc with ⟨-, h2, h3, h4, h5⟩ | ⟨h1, -⟩
    · exact ⟨hm, hle, hrd, h2, by rw [hr]; exact h3, h4, h5⟩
    · rw [h1] at ht; cases ht
  · rw [e] at ht; cases ht

/-- When `ready` holds after a `Scan` call, either the call returned `WS`, or `ready` held
before and the token is none of `MSGLEN`, `SYSLOGMSG`, `WS` and `EOF` with empty payload. -/
theorem Scan_ready_origin (maxAlloc : Nat) (s s1 : Scanner) (tok : Token)
    (h : s.Scan maxAlloc = some (tok, s1)) (hrd1 : s1.ready = true) :
    tok = ⟨TokenType.WS, [32]⟩ ∨
    (s.ready = true ∧ tok.typ ≠ TokenType.MSGLEN ∧ tok.typ ≠ TokenType.SYSLOGMSG ∧
      tok.typ ≠ TokenType.WS ∧ tok ≠ ⟨TokenType.EOF, []⟩) := by
  rcases Scan_cases maxAlloc s s1 tok h with
    ⟨b, t, -, -, e⟩ | ⟨-, e, -⟩ | ⟨e, -⟩ | ⟨b, t, -, hb, hm, hrd, e⟩ | ⟨b, e, -, e2, -⟩
  · have : s1.ready = false := by
      have := congrArg (fun x => x.2.ready) e
      simpa [(scanMsgLen_typ_ready _).2] using this
    rw [this] at hrd1; cases hrd1
  · rw [e] at hrd1; cases hrd1
  · exact Or.inl e
  · obtain ⟨-, hc⟩ := scanSyslogMsg_cases maxAlloc _ s1 tok e
    rcases hc with ⟨-, -, -, -, h5⟩ | ⟨h1, -, -, h4⟩
    · rw [h5] at hrd1; cases hrd1
    · have hne := h4 b t rfl hb hm
      refine Or.inr ⟨hrd, by rw [h1]; simp, by rw [h1]; simp, by rw [h1]; simp, ?_⟩
      intro hc
      rw [hc] at hne
      exact hne rfl
  · rw [e2] at hrd1
    rw [e]
    exact Or.inr ⟨hrd1, by simp, by simp, by simp, by simp⟩

/-- The step property along `k` calls from any state: when they return and `ready` holds at the
end, either it held at the start and every token is one that keeps it, or some call returned
`WS` and every token after it is one that keeps it. -/
theorem scanN_ready_origin (maxAlloc k : Nat) : ∀ (s s1 : Scanner) (toks : List Token),
    scanN maxAlloc k s = some (toks, s1) → s1.ready = true →
    (s.ready = true ∧ ∀ t ∈ toks, t.typ ≠ TokenType.MSGLEN ∧
      t.typ ≠ TokenType.SYSLOGMSG ∧ t.typ ≠ TokenType.WS ∧ t ≠ ⟨TokenType.EOF, []⟩) ∨
    (∃ pre post, toks = pre ++ ⟨TokenType.WS, [32]⟩ :: post ∧
      ∀ t ∈ post, t.typ ≠ TokenType.MSGLEN ∧ t.typ ≠ TokenType.SYSLOGMSG ∧
        t.typ ≠ TokenType.WS ∧ t ≠ ⟨TokenType.EOF, []⟩) := by
  induction k with
  | zero =>
    intro s s1 toks h hrd
    simp only [scanN, Option.some.injEq, Prod.mk.injEq] at h
    obtain ⟨h1, h2⟩ := h
    subst h1 h2
    left; exact ⟨hrd, by simp⟩
  | succ k ih =>
    intro s s1 all h hrd
    obtain ⟨tok, s0, toks, e1, e2, e3⟩ := scanN_succ_inv maxAlloc k s s1 all h
    subst e3
    rcases ih s0 s1 toks e2 hrd with ⟨hrd0, hall⟩ | ⟨pre, post, he, hpost⟩
    · rcases Scan_ready_origin maxAlloc s s0 tok e1 hrd0 with hws | ⟨hs, hk⟩
      · right
        exact ⟨[], toks, by simp [hws], hall⟩
      · left
        refine ⟨hs, ?_⟩
        intro t ht
        rcases List.mem_cons.mp ht with ht | ht
        · rw [ht]; exact hk
        · exact hall t ht
    · right
      exact ⟨tok :: pre, post, by simp [he], hpost⟩

/-! ## Where tokens come from -/

/-- A `MSGLEN` token comes from the length scan only, and `msglen` after the call is what
`ParseUint` returns on the token's payload. -/
theorem Scan_msglen_origin (maxAlloc : Nat) (s s1 : Scanner) (tok : Token)
    (h : s.Scan maxAlloc = some (tok, s1)) (ht : tok.typ = TokenType.MSGLEN) :
    s1.msglen = (ParseUint tok.lit).1 := by
  rcases Scan_cases maxAlloc s s1 tok h with
    ⟨b, t, -, -, e⟩ | ⟨e, -⟩ | ⟨e, -⟩ | ⟨b, t, -, -, -, -, e⟩ | ⟨b, e, -⟩
  · have e1 := congrArg (fun x => x.1.lit) e
    have e2 := congrArg (fun x => x.2.msglen) e
    simp only at e1 e2
    rw [e1, e2]
    rfl
  · rw [e] at ht; cases ht
  · rw [e] at ht; cases ht
  · obtain ⟨-, hc⟩ := scanSyslogMsg_cases maxAlloc _ s1 tok e
    rcases hc with ⟨h1, -⟩ | ⟨h1, -⟩
    · rw [h1] at ht; cases ht
    · rw [h1] at ht; cases ht
  · rw [e] at ht; cases ht

/-- In a state that holds a positive `msglen` and `ready`, no input gives `ILLEGAL`. -/
theorem Scan_not_illegal (maxAlloc : Nat) (s s1 : Scanner) (tok : Token) (hm : 0 < s.msglen)
    (hrd : s.ready = true) (h : s.Scan maxAlloc = some (tok, s1)) :
    tok.typ ≠ TokenType.ILLEGAL := by
  rcases Scan_cases maxAlloc s s1 tok h with
    ⟨b, t, -, -, e⟩ | ⟨e, -⟩ | ⟨e, -⟩ | ⟨b, t, -, -, -, -, e⟩ | ⟨b, -, -, -, -, e⟩
  · have : tok.typ = TokenType.MSGLEN := by
      have := congrArg (fun x => x.1.typ) e
      simpa [(scanMsgLen_typ_ready _).1] using this
    rw [this]; simp
  · rw [e]; simp
  · rw [e]; simp
  · obtain ⟨-, hc⟩ := scanSyslogMsg_cases maxAlloc _ s1 tok e
    rcases hc with ⟨h1, -⟩ | ⟨h1, -⟩
    · rw [h1]; simp
    · rw [h1]; simp
  · exfalso
    rcases e with e | e
    · omega
    · rw [e] at hrd; cases hrd

/-! ## What a `Scan` call consumes -/

/-- The length loop consumes the bytes it adds to the buffer, and after them at most one zero
byte, which it drops. -/
theorem scanMsgLenLoop_consumed (fuel : Nat) : ∀ (s : Scanner) (buf : List Nat),
    s.r.rest.length < fuel →
    ∃ taken, (Scanner.scanMsgLenLoop fuel s buf).2 = buf ++ taken ∧
      (s.r.rest = taken ++ (Scanner.scanMsgLenLoop fuel s buf).1.r.rest ∨
       s.r.rest = taken ++ 0 :: (Scanner.scanMsgLenLoop fuel s buf).1.r.rest) := by
  induction fuel with
  | zero => intro s buf h; omega
  | succ fuel ih =>
    intro s buf h
    cases hr : s.r.rest with
    | nil =>
      refine ⟨[], ?_, Or.inl ?_⟩
      · rw [scanMsgLenLoop_succ, read_nil s hr]; simp [eof]
      · rw [scanMsgLenLoop_succ, read_nil s hr]; simp [eof, hr]
    | cons c t =>
      rw [scanMsgLenLoop_succ, read_cons s c t hr]
      by_cases h0 : c = eof
      · refine ⟨[], by simp [h0], Or.inr ?_⟩
        have : c = 0 := h0
        simp [h0, this, eof]
      · by_cases hd : isDigit c = true
        · have ht : t.length < fuel := by rw [hr] at h; simpa using h
          obtain ⟨taken, e1, e2⟩ :=
            ih { s with r := { rest := t, lastByte := (c : Int) } } (buf ++ [c]) ht
          refine ⟨c :: taken, ?_, ?_⟩
          · simp only [h0, hd, if_false, Bool.not_true]
            simpa using e1
          · simp only [h0, hd, if_false, Bool.not_true]
            rcases e2 with e | e
            · left; simpa using e
            · right; simpa using e
        · refine ⟨[], by simp [h0, hd], Or.inl ?_⟩
          simp [h0, hd, unread_after_read]

/-- The payload loop consumes the bytes it adds to the buffer, and after them at most one zero
byte, which it drops; an early return carries the buffer. -/
theorem scanSyslogMsgLoop_consumed (k : Nat) : ∀ (s : Scanner) (buf : List Nat),
    ∃ taken, (Scanner.scanSyslogMsgLoop k s buf).2.1 = buf ++ taken ∧
      ((Scanner.scanSyslogMsgLoop k s buf).1 = none ∨
       (Scanner.scanSyslogMsgLoop k s buf).1 = some ⟨TokenType.EOF, buf ++ taken⟩) ∧
      (s.r.rest = taken ++ (Scanner.scanSyslogMsgLoop k s buf).2.2.r.rest ∨
       s.r.rest = taken ++ 0 :: (Scanner.scanSyslogMsgLoop k s buf).2.2.r.rest) := by
  induction k with
  | zero => intro s buf; exact ⟨[], by simp [Scanner.scanSyslogMsgLoop]⟩
  | succ k ih =>
    intro s buf
    cases hr : s.r.rest with
    | nil =>
      refine ⟨[], ?_⟩
      rw [scanSyslogMsgLoop_succ, read_nil s hr]
      simp [eof, hr]
    | cons c t =>
      rw [scanSyslogMsgLoop_succ, read_cons s c t hr]
      by_cases h0 : c = eof
      · refine ⟨[], ?_⟩
        have : c = 0 := h0
        simp [h0, this, eof]
      · obtain ⟨taken, e1, e2, e3⟩ :=
          ih { s with r := { rest := t, lastByte := (c : Int) } } (buf ++ [c])
        refine ⟨c :: taken, ?_, ?_, ?_⟩
        · simp only [h0, if_false]; simpa using e1
        · simp only [h0, if_false]; simpa using e2
        · simp only [h0, if_false]
          rcases e3 with e | e
          · left; simpa using e
          · right; simpa using e

/-- The length scan on a source with a next byte: the token's payload is not empty and is what
was consumed, up to one dropped zero byte after it. -/
theorem scanMsgLen_consumed (s : Scanner) (b : Nat) (t : List Nat) (hr : s.r.rest = b :: t) :
    s.scanMsgLen.1.lit ≠ [] ∧
    (s.r.rest = s.scanMsgLen.1.lit ++ s.scanMsgLen.2.r.rest ∨
     s.r.rest = s.scanMsgLen.1.lit ++ 0 :: s.scanMsgLen.2.r.rest) := by
  obtain ⟨taken, e1, e2⟩ := scanMsgLenLoop_consumed (t.length + 1)
    { s with r := { rest := t, lastByte := (b : Int) } } [b] (by simp)
  simp only [Scanner.scanMsgLen, read_cons s b t hr, e1]
  refine ⟨by simp, ?_⟩
  rw [hr]
  rcases e2 with e | e
  · left; simpa using e
  · right; simpa using e

/-- The payload scan with a positive `msglen` on a source whose next byte is not zero, when it
returns: the token's payload is not empty and is what was consumed, up to one dropped zero byte
after it. -/
theorem scanSyslogMsg_consumed (maxAlloc : Nat) (s s1 : Scanner) (tok : Token) (b : Nat)
    (t : List Nat) (h : s.scanSyslogMsg maxAlloc = some (tok, s1)) (hr : s.r.rest = b :: t)
    (hb : b ≠ 0) (hm : 0 < s.msglen) :
    tok.lit ≠ [] ∧
    (s.r.rest = tok.lit ++ s1.r.rest ∨ s.r.rest = tok.lit ++ 0 :: s1.r.rest) := by
  by_cases hgt : maxAlloc < s.msglen
  · rw [scanSyslogMsg_none maxAlloc s hgt] at h; cases h
  · rw [scanSyslogMsg_some maxAlloc s (Nat.le_of_not_lt hgt)] at h
    obtain ⟨j, hj⟩ : ∃ j, s.msglen = j + 1 := ⟨s.msglen - 1, by omega⟩
    obtain ⟨taken, e1, e2, e3⟩ := scanSyslogMsgLoop_consumed j
      { s with r := { rest := t, lastByte := (b : Int) } } [b]
    have hl : Scanner.scanSyslogMsgLoop s.msglen s [] = Scanner.scanSyslogMsgLoop j
        { s with r := { rest := t, lastByte := (b : Int) } } [b] := by
      have hstep := scanSyslogMsgLoop_succ j s []
      rw [read_cons s b t hr] at hstep
      simp only [eof, hb, if_false, List.nil_append] at hstep
      exact (congrArg (fun m => Scanner.scanSyslogMsgLoop m s []) hj).trans hstep
    have e3' : s.r.rest = (b :: taken) ++ (Scanner.scanSyslogMsgLoop j
        { s with r := { rest := t, lastByte := (b : Int) } } [b]).2.2.r.rest ∨
        s.r.rest = (b :: taken) ++ 0 :: (Scanner.scanSyslogMsgLoop j
        { s with r := { rest := t, lastByte := (b : Int) } } [b]).2.2.r.rest := by
      rw [hr]
      rcases e3 with e | e
      · left; simpa using e
      · right; simpa using e
    rw [hl] at h
    generalize Scanner.scanSyslogMsgLoop j
        { s with r := { rest := t, lastByte := (b : Int) } } [b] = res at e1 e2 e3' h
    obtain ⟨tk, buf, s2⟩ := res
    simp only at e1 e2 e3'
    subst e1
    rcases e2 with e | e
    · subst e
      simp only [Option.some.injEq, Prod.mk.injEq] at h
      obtain ⟨h3, h4⟩ := h
      subst h3 h4
      exact ⟨by simp, by simpa using e3'⟩
    · subst e
      simp only [Option.some.injEq, Prod.mk.injEq] at h
      obtain ⟨h3, h4⟩ := h
      subst h3 h4
      exact ⟨by simp, by simpa using e3'⟩

/-- One `Scan` call that returns, on a source with a next byte: either the token's payload is
not empty and it is exactly what was consumed, or what was consumed is the payload and one
zero byte. -/
theorem Scan_consumed (maxAlloc : Nat) (s s1 : Scanner) (tok : Token)
    (h : s.Scan maxAlloc = some (tok, s1)) (hne : s.r.rest ≠ []) :
    (tok.lit ≠ [] ∧ s.r.rest = tok.lit ++ s1.r.rest) ∨
    s.r.rest = tok.lit ++ 0 :: s1.r.rest := by
  rcases Scan_cases maxAlloc s s1 tok h with
    ⟨b, t, hr, -, e⟩ | ⟨e, -, -, e2⟩ | ⟨e, -, -, e2⟩ | ⟨b, t, hr, hb, hm, -, e⟩ |
    ⟨b, e, e2, -⟩
  · obtain ⟨h1, h2⟩ := scanMsgLen_consumed
      { r := { rest := b :: t, lastByte := -1 }, msglen := s.msglen, ready := false } b t rfl
    have et : tok = (Scanner.scanMsgLen
      { r := { rest := b :: t, lastByte := -1 }, msglen := s.msglen, ready := false }).1 :=
      congrArg Prod.fst e
    have es : s1 = (Scanner.scanMsgLen
      { r := { rest := b :: t, lastByte := -1 }, msglen := s.msglen, ready := false }).2 :=
      congrArg Prod.snd e
    rw [← et, ← es] at h2
    rw [← et] at h1
    rw [hr]
    rcases h2 with h2 | h2
    · exact Or.inl ⟨h1, h2⟩
    · exact Or.inr h2
  · rcases e2 with ⟨e3, -⟩ | e3
    · exact absurd e3 hne
    · right; rw [e, e3]; simp
  · left; rw [e, e2]; simp
  · obtain ⟨h1, h2⟩ := scanSyslogMsg_consumed maxAlloc _ s1 tok b t e rfl hb hm
    rw [hr]
    rcases h2 with h2 | h2
    · exact Or.inl ⟨h1, h2⟩
    · exact Or.inr h2
  · left; rw [e, e2]; simp

/-- One `Scan` call that returns, on a source with a next byte, leaves fewer bytes unread. -/
theorem Scan_progress (maxAlloc : Nat) (s s1 : Scanner) (tok : Token)
    (h : s.Scan maxAlloc = some (tok, s1)) (hne : s.r.rest ≠ []) :
    s1.r.rest.length < s.r.rest.length := by
  rcases Scan_consumed maxAlloc s s1 tok h hne with ⟨h1, h2⟩ | h2
  · have hl := congrArg List.length h2
    have hpos : 0 < tok.lit.length := List.length_pos.mpr h1
    simp only [List.length_append] at hl
    omega
  · have hl := congrArg List.length h2
    simp only [List.length_append, List.length_cons] at hl
    omega

/-- After as many `Scan` calls as there are unread bytes, or more, when they all return, the
source is exhausted. -/
theorem scanN_exhausts (maxAlloc k : Nat) : ∀ (s s1 : Scanner) (toks : List Token),
    scanN maxAlloc k s = some (toks, s1) → s.r.rest.length ≤ k → s1.r.rest = [] := by
  induction k with
  | zero =>
    intro s s1 toks h hk
    simp only [scanN, Option.some.injEq, Prod.mk.injEq] at h
    rw [← h.2]
    exact List.length_eq_zero.mp (Nat.le_zero.mp hk)
  | succ k ih =>
    intro s s1 all h hk
    obtain ⟨tok, s0, toks, e1, e2, -⟩ := scanN_succ_inv maxAlloc k s s1 all h
    apply ih s0 s1 toks e2
    by_cases he : s.r.rest = []
    · rw [Scan_nil maxAlloc s he] at e1
      simp only [Option.some.injEq, Prod.mk.injEq] at e1
      rw [← e1.2]
      simp [he]
    · have := Scan_progress maxAlloc s s0 tok e1 he
      omega

/-- When `k` calls return, call `k + 1` adds its token to theirs, or panics. -/
theorem scanN_succ_tokens (maxAlloc k : Nat) (s s1 : Scanner) (toks : List Token)
    (h : scanN maxAlloc k s = some (toks, s1)) :
    scanN maxAlloc (k + 1) s = (s1.Scan maxAlloc).map (fun r => (toks ++ [r.1], r.2)) := by
  rw [scanN_add maxAlloc k 1 s s1 toks h]
  cases hs : s1.Scan maxAlloc with
  | none => simp [scanN, hs]
  | some r => simp [scanN, hs]

/-- On a source without a zero byte, from any state: when `k` calls return, the payloads of
their tokens followed by what is still unread are what was unread at the start. -/
theorem scanN_payloads (maxAlloc k : Nat) : ∀ (s s1 : Scanner) (toks : List Token),
    (∀ b ∈ s.r.rest, b ≠ 0) → scanN maxAlloc k s = some (toks, s1) →
    s.r.rest = payloads toks ++ s1.r.rest := by
  induction k with
  | zero =>
    intro s s1 toks _ h
    simp only [scanN, Option.some.injEq, Prod.mk.injEq] at h
    rw [← h.1, ← h.2]
    simp [payloads]
  | succ k ih =>
    intro s s1 all hz h
    obtain ⟨tok, s0, toks, e1, e2, e3⟩ := scanN_succ_inv maxAlloc k s s1 all h
    subst e3
    by_cases he : s.r.rest = []
    · rw [Scan_nil maxAlloc s he] at e1
      simp only [Option.some.injEq, Prod.mk.injEq] at e1
      obtain ⟨e4, e5⟩ := e1
      subst e4 e5
      have := ih _ s1 toks (by simp [he]) e2
      simp only [payloads, List.nil_append]
      simpa using this
    · rcases Scan_consumed maxAlloc s s0 tok e1 he with ⟨-, h2⟩ | h2
      · have hz0 : ∀ x ∈ s0.r.rest, x ≠ 0 := by
          intro x hx
          apply hz x
          rw [h2]
          exact List.mem_append_right _ hx
        have := ih s0 s1 toks hz0 e2
        rw [h2, this]
        simp [payloads]
      · exfalso
        apply hz 0 _ rfl
        rw [h2]
        simp

/-- On a source without a zero byte, from any state, when the calls do not panic: some number
of `Scan` calls, at most the number of unread bytes, exhausts the source, returns no `EOF` with
empty payload, and the payloads of the tokens make up the unread bytes. -/
theorem scanN_lossless (maxAlloc n : Nat) : ∀ s : Scanner, s.r.rest.length ≤ n →
    (∀ b ∈ s.r.rest, b ≠ 0) → scanN maxAlloc (n + 1) s ≠ none →
    ∃ k toks s1, k ≤ s.r.rest.length ∧ scanN maxAlloc k s = some (toks, s1) ∧
      (∀ t ∈ toks, t ≠ ⟨TokenType.EOF, []⟩) ∧ s1.r.rest = [] ∧ payloads toks = s.r.rest := by
  induction n with
  | zero =>
    intro s h _ _
    have he : s.r.rest = [] := List.length_eq_zero.mp (Nat.le_zero.mp h)
    exact ⟨0, [], s, by simp, rfl, by simp, he, by simp [payloads, he]⟩
  | succ n ih =>
    intro s h hz hnp
    by_cases he : s.r.rest = []
    · exact ⟨0, [], s, by simp, rfl, by simp, he, by simp [payloads, he]⟩
    · obtain ⟨r, hr⟩ := Option.ne_none_iff_exists'.mp hnp
      obtain ⟨all, s2⟩ := r
      obtain ⟨tok, s0, toks0, e1, e2, -⟩ := scanN_succ_inv maxAlloc (n + 1) s s2 all hr
      have hprog := Scan_progress maxAlloc s s0 tok e1 he
      rcases Scan_consumed maxAlloc s s0 tok e1 he with ⟨h1, h2⟩ | h2
      · have hz0 : ∀ x ∈ s0.r.rest, x ≠ 0 := by
          intro x hx
          apply hz x
          rw [h2]
          exact List.mem_append_right _ hx
        obtain ⟨k, toks, s1, hk, hs, hall, hex, hpay⟩ :=
          ih s0 (by omega) hz0 (by rw [e2]; simp)
        refine ⟨k + 1, tok :: toks, s1, by omega,
          scanN_succ_some maxAlloc k s s0 s1 tok toks e1 hs, ?_, hex, ?_⟩
        · intro tk htk
          rcases List.mem_cons.mp htk with e | e
          · intro hc
            rw [e] at hc
            rw [hc] at h1
            exact h1 rfl
          · exact hall tk e
        · simp only [payloads, hpay]
          exact h2.symm
      · exfalso
        apply hz 0 _ rfl
        rw [h2]
        simp

/-- From a state with `msglen = 0` and `ready = false`, over the wire form of a list of
messages (lengths from 1 to below `2^64` and within the allocation bound, payloads of that
length without zero byte and not starting with a space or a digit): three `Scan` calls per
message return the tokens of the messages and leave the source exhausted and the state
reset. -/
theorem scanN_messages (maxAlloc : Nat) (msgs : List (Nat × List Nat)) : ∀ s : Scanner,
    (∀ m ∈ msgs, 1 ≤ m.1 ∧ m.1 < 2 ^ 64 ∧ m.1 ≤ maxAlloc ∧ m.2.length = m.1 ∧
      (∀ b ∈ m.2, b ≠ 0) ∧ (∀ b, m.2.head? = some b → b ≠ 32 ∧ ¬ (48 ≤ b ∧ b ≤ 57))) →
    s.r.rest = encodeMessages msgs → s.msglen = 0 → s.ready = false →
    ∃ lb, scanN maxAlloc (3 * msgs.length) s = some
      (messageTokens msgs, { r := { rest := [], lastByte := lb }, msglen := 0, ready := false }) := by
  induction msgs with
  | nil =>
    intro s _ hr hm hrd
    refine ⟨s.r.lastByte, ?_⟩
    simp only [List.length_nil, Nat.mul_zero, scanN, messageTokens]
    rw [← hm, ← hrd]
    have : s.r.rest = [] := hr
    rw [← this]
  | cons m ms ih =>
    intro s hall hr _ _
    obtain ⟨h1, h2, hle, h3, h4, h5⟩ := hall m (List.mem_cons_self m ms)
    obtain ⟨lb1, e1⟩ := scanN_message maxAlloc s m.1 m.2 (encodeMessages ms) h1 h2 hle h3 h4 h5 hr
    obtain ⟨lb2, e2⟩ := ih
      { r := { rest := encodeMessages ms, lastByte := lb1 }, msglen := 0, ready := false }
      (fun x hx => hall x (List.mem_cons_of_mem m hx)) rfl rfl rfl
    refine ⟨lb2, ?_⟩
    have e : 3 * (m :: ms).length = 3 + 3 * ms.length := by simp; omega
    rw [e, scanN_add maxAlloc 3 (3 * ms.length) s _ _ e1, e2]
    simp [messageTokens]

/-- A `Scan` call panics exactly when it starts a payload scan with `msglen` above the
allocation bound: `ready` holds and the next byte is neither zero, nor a space, nor accepted by
`isNonZeroDigit`. -/
theorem Scan_none_iff (maxAlloc : Nat) (s : Scanner) :
    s.Scan maxAlloc = none ↔
      ∃ b t, s.r.rest = b :: t ∧ isNonZeroDigit b = false ∧ b ≠ 0 ∧ b ≠ 32 ∧
        s.ready = true ∧ maxAlloc < s.msglen := by
  constructor
  · intro h
    cases hr : s.r.rest with
    | nil => rw [Scan_nil maxAlloc s hr] at h; cases h
    | cons b t =>
      rw [Scan_cons maxAlloc s b t hr] at h
      by_cases c1 : isNonZeroDigit b = true
      · rw [if_pos c1] at h; cases h
      · rw [if_neg c1] at h
        by_cases c2 : b = eof
        · rw [if_pos c2] at h; cases h
        · rw [if_neg c2] at h
          by_cases c3 : b = ws
          · rw [if_pos c3] at h; cases h
          · rw [if_neg c3] at h
            by_cases c4 : s.msglen > 0 ∧ s.ready = true
            · rw [if_pos c4] at h
              refine ⟨b, t, rfl, by simpa using c1, by simpa [eof] using c2,
                by simpa [ws] using c3, c4.2, ?_⟩
              by_contra hle
              have hs := scanSyslogMsg_some maxAlloc
                { r := { rest := b :: t, lastByte := -1 }, msglen := s.msglen, ready := s.ready }
                (Nat.le_of_not_lt hle)
              rw [hs] at h
              split at h <;> cases h
            · rw [if_neg c4] at h; cases h
  · rintro ⟨b, t, hr, c1, c2, c3, hrd, hgt⟩
    rw [Scan_cons maxAlloc s b t hr]
    have hm : s.msglen > 0 := by omega
    rw [if_neg (by simp [c1]), if_neg (by simpa [eof] using c2),
      if_neg (by simpa [ws] using c3), if_pos ⟨hm, hrd⟩]
    exact scanSyslogMsg_none maxAlloc
      { r := { rest := b :: t, lastByte := -1 }, msglen := s.msglen, ready := s.ready } hgt

/-- One message whose length `N + 1` is above the allocation bound, with `N + 1` bytes `'a'` as
payload: it is well formed, and the `Scan` calls over it panic at the third call. -/
theorem scanN_oversize_message (maxAlloc N : Nat) (hgt : maxAlloc < N + 1)
    (h2 : N + 1 < 2 ^ 64) :
    (∀ m ∈ [(N + 1, 97 :: List.replicate N 97)], 1 ≤ m.1 ∧ m.1 < 2 ^ 64 ∧ m.2.length = m.1 ∧
      (∀ b ∈ m.2, b ≠ 0) ∧ (∀ b, m.2.head? = some b → b ≠ 32 ∧ ¬ (48 ≤ b ∧ b ≤ 57))) ∧
    scanN maxAlloc (3 + 1)
      (NewScanner (encodeMessages [(N + 1, 97 :: List.replicate N 97)])) = none := by
  constructor
  · intro m hm
    have hm1 : m = (N + 1, 97 :: List.replicate N 97) := by simpa using hm
    subst hm1
    refine ⟨by omega, h2, by simp, ?_, ?_⟩
    · intro b hb
      have hb1 : b = 97 := by
        rcases List.mem_cons.mp hb with e | e
        · exact e
        · exact List.eq_of_mem_replicate e
      omega
    · intro b hb
      have hb1 : b = 97 := by simpa using hb.symm
      omega
  · apply scanN_add_none maxAlloc 3 1
    exact scanN_message_panics maxAlloc _ (N + 1) 97 (List.replicate N 97 ++ []) (by omega) h2
      hgt (by decide) (by decide) (by decide) (by simp [NewScanner, encodeMessages])

/-! ## The allocation bound -/

/-- A payload scan that returns under an allocation bound returns the same under a larger
one. -/
theorem scanSyslogMsg_mono (a b : Nat) (hab : a ≤ b) (s : Scanner) (r : Token × Scanner)
    (h : s.scanSyslogMsg a = some r) : s.scanSyslogMsg b = some r := by
  obtain ⟨tok, s1⟩ := r
  obtain ⟨hle, -⟩ := scanSyslogMsg_cases a s s1 tok h
  rw [scanSyslogMsg_some a s hle] at h
  rw [scanSyslogMsg_some b s (Nat.le_trans hle hab)]
  exact h

/-- A `Scan` call that returns under an allocation bound returns the same under a larger one. -/
theorem Scan_mono (a b : Nat) (hab : a ≤ b) (s : Scanner) (r : Token × Scanner)
    (h : s.Scan a = some r) : s.Scan b = some r := by
  cases hr : s.r.rest with
  | nil => rw [Scan_nil a s hr] at h; rw [Scan_nil b s hr]; exact h
  | cons c t =>
    rw [Scan_cons a s c t hr] at h
    rw [Scan_cons b s c t hr]
    by_cases c1 : isNonZeroDigit c = true
    · rw [if_pos c1] at h ⊢; exact h
    · rw [if_neg c1] at h ⊢
      by_cases c2 : c = eof
      · rw [if_pos c2] at h ⊢; exact h
      · rw [if_neg c2] at h ⊢
        by_cases c3 : c = ws
        · rw [if_pos c3] at h ⊢; exact h
        · rw [if_neg c3] at h ⊢
          by_cases c4 : s.msglen > 0 ∧ s.ready = true
          · rw [if_pos c4] at h ⊢
            exact scanSyslogMsg_mono a b hab _ r h
          · rw [if_neg c4] at h ⊢; exact h

/-- Successive `Scan` calls that return under an allocation bound return the same under a
larger one. -/
theorem scanN_mono (a b : Nat) (hab : a ≤ b) (k : Nat) : ∀ (s : Scanner)
    (r : List Token × Scanner), scanN a k s = some r → scanN b k s = some r := by
  induction k with
  | zero => intro s r h; exact h
  | succ k ih =>
    intro s r h
    obtain ⟨all, s2⟩ := r
    obtain ⟨tok, s1, toks, e1, e2, e3⟩ := scanN_succ_inv a k s s2 all h
    subst e3
    exact scanN_succ_some b k s s1 s2 tok toks (Scan_mono a b hab s _ e1) (ih s1 _ e2)

/-- Successive `Scan` calls that panic under an allocation bound panic under every smaller
one. -/
theorem scanN_none_mono (a b : Nat) (hab : a ≤ b) (k : Nat) (s : Scanner)
    (h : scanN b k s = none) : scanN a k s = none := by
  cases ha : scanN a k s with
  | none => rfl
  | some r => rw [scanN_mono a b hab k s r ha] at h; cases h

/-! ## The claims -/

/-- C1, as stated, fails: round trip for every `n >= 1` and every byte sequence `content` of
length `n`. On `"1 5"` the third token is `MSGLEN("5")`, not `SYSLOGMSG("5")`: a payload that
starts with a digit is dispatched to the length scan. -/
theorem C1_round_trip_any_content_fails :
    ¬ ∀ (n : Nat) (content : List Nat), 1 ≤ n → content.length = n → (∀ b ∈ content, b < 256) →
      (scanN maxAlloc64 3 (NewScanner (decimal n ++ 32 :: content))).map Prod.fst = some
        [⟨TokenType.MSGLEN, decimal n⟩, ⟨TokenType.WS, [32]⟩, ⟨TokenType.SYSLOGMSG, content⟩] := by
  intro h
  have h1 := h 1 [53] (by decide) rfl (by decide)
  revert h1
  decide

/-- C1, amended: round trip. For every `n` with `1 <= n < 2^64` that is within the allocation
bound `maxAlloc`, and every byte sequence `content` of length `n` that has no zero byte and
whose first byte is neither a space nor one of `'0'..'9'`, three successive `Scan` calls on a
fresh scanner over `"{n} {content}"` return `MSGLEN("{n}")`, `WS(" ")`, `SYSLOGMSG(content)`,
in that order. -/
theorem C1_round_trip (maxAlloc n : Nat) (content : List Nat) (h1 : 1 ≤ n) (h2 : n < 2 ^ 64)
    (hle : n ≤ maxAlloc) (hlen : content.length = n) (hz : ∀ b ∈ content, b ≠ 0)
    (hfirst : ∀ b, content.head? = some b → b ≠ 32 ∧ ¬ (48 ≤ b ∧ b ≤ 57)) :
    (scanN maxAlloc 3 (NewScanner (decimal n ++ 32 :: content))).map Prod.fst = some
      [⟨TokenType.MSGLEN, decimal n⟩, ⟨TokenType.WS, [32]⟩, ⟨TokenType.SYSLOGMSG, content⟩] := by
  obtain ⟨lb, h⟩ := scanN_message maxAlloc (NewScanner (decimal n ++ 32 :: content)) n content []
    h1 h2 hle hlen hz hfirst (by simp [NewScanner])
  rw [h]
  rfl

/-- Witness of C1: the message `"2 hi"`. -/
theorem C1_round_trip_witness :
    (scanN maxAlloc64 3 (NewScanner (decimal 2 ++ 32 :: [104, 105]))).map Prod.fst = some
      [⟨TokenType.MSGLEN, decimal 2⟩, ⟨TokenType.WS, [32]⟩, ⟨TokenType.SYSLOGMSG, [104, 105]⟩] :=
  C1_round_trip maxAlloc64 2 [104, 105] (by decide) (by decide) (by decide) rfl (by decide)
    (by decide)

/-- C2, as stated, fails: back-to-back scanning of any two valid messages. On `"1 a1 5"` the
sixth token is `MSGLEN("5")`, not `SYSLOGMSG("5")`. -/
theorem C2_back_to_back_any_content_fails :
    ¬ ∀ (n1 n2 : Nat) (c1 c2 : List Nat), 1 ≤ n1 → 1 ≤ n2 → c1.length = n1 → c2.length = n2 →
      (∀ b ∈ c1 ++ c2, b < 256) →
      (scanN maxAlloc64 6
        (NewScanner ((decimal n1 ++ 32 :: c1) ++ (decimal n2 ++ 32 :: c2)))).map Prod.fst = some
        [⟨TokenType.MSGLEN, decimal n1⟩, ⟨TokenType.WS, [32]⟩, ⟨TokenType.SYSLOGMSG, c1⟩,
         ⟨TokenType.MSGLEN, decimal n2⟩, ⟨TokenType.WS, [32]⟩, ⟨TokenType.SYSLOGMSG, c2⟩] := by
  intro h
  have h1 := h 1 1 [97] [53] (by decide) (by decide) rfl rfl (by decide)
  revert h1
  decide

/-- C2, amended: back-to-back messages. For any two messages `"{n1} {c1}"` and `"{n2} {c2}"`
with `1 <= ni < 2^64`, `ni` within the allocation bound `maxAlloc`, `ci` of length `ni`, no
zero byte in `ci` and the first byte of `ci` neither a space nor one of `'0'..'9'`, six
successive `Scan` calls on a fresh scanner over their concatenation return `MSGLEN("{n1}")`,
`WS`, `SYSLOGMSG(c1)`, `MSGLEN("{n2}")`, `WS`, `SYSLOGMSG(c2)` and nothing in between. -/
theorem C2_back_to_back (maxAlloc n1 n2 : Nat) (c1 c2 : List Nat)
    (h1 : 1 ≤ n1) (h2 : n1 < 2 ^ 64) (hle1 : n1 ≤ maxAlloc) (hlen1 : c1.length = n1)
    (hz1 : ∀ b ∈ c1, b ≠ 0)
    (hf1 : ∀ b, c1.head? = some b → b ≠ 32 ∧ ¬ (48 ≤ b ∧ b ≤ 57))
    (h3 : 1 ≤ n2) (h4 : n2 < 2 ^ 64) (hle2 : n2 ≤ maxAlloc) (hlen2 : c2.length = n2)
    (hz2 : ∀ b ∈ c2, b ≠ 0)
    (hf2 : ∀ b, c2.head? = some b → b ≠ 32 ∧ ¬ (48 ≤ b ∧ b ≤ 57)) :
    (scanN maxAlloc 6
      (NewScanner ((decimal n1 ++ 32 :: c1) ++ (decimal n2 ++ 32 :: c2)))).map Prod.fst = some
      [⟨TokenType.MSGLEN, decimal n1⟩, ⟨TokenType.WS, [32]⟩, ⟨TokenType.SYSLOGMSG, c1⟩,
       ⟨TokenType.MSGLEN, decimal n2⟩, ⟨TokenType.WS, [32]⟩, ⟨TokenType.SYSLOGMSG, c2⟩] := by
  obtain ⟨lb1, e1⟩ := scanN_message maxAlloc
    (NewScanner ((decimal n1 ++ 32 :: c1) ++ (decimal n2 ++ 32 :: c2))) n1 c1
    (decimal n2 ++ 32 :: c2) h1 h2 hle1 hlen1 hz1 hf1 (by simp [NewScanner])
  obtain ⟨lb2, e2⟩ := scanN_message maxAlloc
    { r := { rest := decimal n2 ++ 32 :: c2, lastByte := lb1 }, msglen := 0, ready := false }
    n2 c2 [] h3 h4 hle2 hlen2 hz2 hf2 (by simp)
  have e : (6 : Nat) = 3 + 3 := rfl
  rw [e, scanN_add maxAlloc 3 3 _ _ _ e1, e2]
  rfl

/-- Witness of C2: the messages `"1 a"` and `"2 hi"`. -/
theorem C2_back_to_back_witness :
    (scanN maxAlloc64 6
      (NewScanner ((decimal 1 ++ 32 :: [97]) ++ (decimal 2 ++ 32 :: [104, 105])))).map Prod.fst =
      some
      [⟨TokenType.MSGLEN, decimal 1⟩, ⟨TokenType.WS, [32]⟩, ⟨TokenType.SYSLOGMSG, [97]⟩,
       ⟨TokenType.MSGLEN, decimal 2⟩, ⟨TokenType.WS, [32]⟩,
       ⟨TokenType.SYSLOGMSG, [104, 105]⟩] :=
  C2_back_to_back maxAlloc64 1 2 [97] [104, 105] (by decide) (by decide) (by decide) rfl
    (by decide) (by decide) (by decide) (by decide) (by decide) rfl (by decide) (by decide)

/-- C3, as stated, fails: truncation for every declared length. On `"18446744073709551616 a"`
the length overflows and `msglen` is `2^64 - 1`; after `MSGLEN` and `WS` one byte is left where
`2^64 - 1` are declared, and the `Scan` call that starts the payload scan panics in the
allocation of the buffer: no token is returned. -/
theorem C3_truncation_oversize_length_panics :
    scanN maxAlloc64 2 (NewScanner
      [49, 56, 52, 52, 54, 55, 52, 52, 48, 55, 51, 55, 48, 57, 53, 53, 49, 54, 49, 54, 32, 97]) =
      some ([⟨TokenType.MSGLEN,
          [49, 56, 52, 52, 54, 55, 52, 52, 48, 55, 51, 55, 48, 57, 53, 53, 49, 54, 49, 54]⟩,
        ⟨TokenType.WS, [32]⟩],
        { r := { rest := [97], lastByte := 32 }, msglen := 18446744073709551615,
          ready := true }) ∧
    Scanner.Scan maxAlloc64 ⟨⟨[97], 32⟩, 18446744073709551615, true⟩ = none ∧
    ¬ ∀ s : Scanner, s.r.rest.length < s.msglen → (∀ b ∈ s.r.rest, b ≠ 0) →
      (s.scanSyslogMsg maxAlloc64).map Prod.fst = some ⟨TokenType.EOF, s.r.rest⟩ := by
  refine ⟨by decide, by decide, ?_⟩
  intro h
  have h1 := h ⟨⟨[97], -1⟩, 18446744073709551615, true⟩ (by decide) (by decide)
  revert h1
  decide

/-- C3, amended: truncation. Whenever a payload scan starts with a declared length `msglen`
within the allocation bound `maxAlloc` and the source holds fewer than `msglen` bytes, none of
them zero, the token is `EOF` carrying exactly these bytes, in order (so it is not
`SYSLOGMSG`); this holds for `scanSyslogMsg` itself and for the `Scan` call that starts it,
with `ready` set, on a byte that is neither a space nor in `'0'..'9'`. With `msglen` above the
bound the payload scan panics. In particular `"5 abc"` on a fresh scanner gives `MSGLEN("5")`,
`WS(" ")` and `EOF` carrying `"abc"`. -/
theorem C3_truncation (maxAlloc : Nat) (s : Scanner) (hlen : s.r.rest.length < s.msglen)
    (hz : ∀ b ∈ s.r.rest, b ≠ 0) :
    (s.msglen ≤ maxAlloc →
      (s.scanSyslogMsg maxAlloc).map Prod.fst = some ⟨TokenType.EOF, s.r.rest⟩ ∧
      (∀ b, s.r.rest.head? = some b → s.ready = true → b ≠ 32 → ¬ (48 ≤ b ∧ b ≤ 57) →
        (s.Scan maxAlloc).map Prod.fst = some ⟨TokenType.EOF, s.r.rest⟩)) ∧
    (maxAlloc < s.msglen → s.scanSyslogMsg maxAlloc = none) ∧
    (scanN maxAlloc64 3 (NewScanner [53, 32, 97, 98, 99])).map Prod.fst = some
      [⟨TokenType.MSGLEN, [53]⟩, ⟨TokenType.WS, [32]⟩, ⟨TokenType.EOF, [97, 98, 99]⟩] := by
  refine ⟨?_, scanSyslogMsg_none maxAlloc s, by decide⟩
  intro hle
  obtain ⟨lb, h⟩ := scanSyslogMsg_short maxAlloc s hle hlen hz
  refine ⟨by rw [h]; rfl, ?_⟩
  intro b hb hrd hb32 hbd
  cases hr : s.r.rest with
  | nil => rw [hr] at hb; simp at hb
  | cons c t =>
    have hcb : c = b := by rw [hr] at hb; simpa using hb
    subst hcb
    have hc0 : c ≠ 0 := hz c (by rw [hr]; exact List.mem_cons_self c t)
    rw [Scan_payload maxAlloc s c t hr (by omega) hrd hc0 hb32 hbd]
    obtain ⟨lb2, h2⟩ := scanSyslogMsg_short maxAlloc
      { r := { rest := c :: t, lastByte := -1 }, msglen := s.msglen, ready := s.ready }
      hle (by rw [hr] at hlen; exact hlen) (by rw [hr] at hz; exact hz)
    rw [h2]
    rfl

/-- Witness of C3: three bytes left where five are declared. -/
theorem C3_truncation_witness :
    (Scanner.scanSyslogMsg maxAlloc64 ⟨⟨[97, 98, 99], -1⟩, 5, true⟩).map Prod.fst =
      some ⟨TokenType.EOF, [97, 98, 99]⟩ :=
  ((C3_truncation maxAlloc64 ⟨⟨[97, 98, 99], -1⟩, 5, true⟩ (by decide) (by decide)).1
    (by decide)).1

/-- C4, at the failing input: leading zero rejection. On `"05 hello"` the first `Scan` call on
a fresh scanner returns `MSGLEN("05")` and stores the length 5, where the claim has `ILLEGAL`
carrying `'0'`: `isNonZeroDigit` accepts the byte 48. -/
theorem C4_leading_zero_scanned_as_length :
    isNonZeroDigit 48 = true ∧
    (NewScanner [48, 53, 32, 104, 101, 108, 108, 111]).Scan maxAlloc64 =
      some (⟨TokenType.MSGLEN, [48, 53]⟩,
        { r := { rest := [32, 104, 101, 108, 108, 111], lastByte := -1 },
          msglen := 5, ready := false }) := by
  decide

/-- C5: idempotent end-of-stream. In every scanner state whose source is exhausted, whatever
`msglen` and `ready` are, `Scan` returns `EOF` with empty payload and leaves the source
exhausted, so any number of further `Scan` calls return `EOF` with empty payload and the
source stays exhausted. -/
theorem C5_idempotent_end_of_stream (maxAlloc : Nat) (s : Scanner) (h : s.r.rest = []) :
    (∃ s1, s.Scan maxAlloc = some (⟨TokenType.EOF, []⟩, s1) ∧ s1.r.rest = []) ∧
    ∀ k : Nat, ∃ s1, scanN maxAlloc k s = some (List.replicate k ⟨TokenType.EOF, []⟩, s1) ∧
      s1.r.rest = [] := by
  refine ⟨⟨_, Scan_nil maxAlloc s h, h⟩, ?_⟩
  intro k
  induction k generalizing s with
  | zero => exact ⟨s, rfl, h⟩
  | succ k ih =>
    obtain ⟨s1, i1, i2⟩ := ih { s with ready := false } h
    exact ⟨s1, scanN_succ_some maxAlloc k s _ s1 _ _ (Scan_nil maxAlloc s h) i1, i2⟩

/-- Witness of C5: an exhausted source with a stale length and `ready` set. -/
theorem C5_idempotent_end_of_stream_witness :
    (∃ s1, Scanner.Scan maxAlloc64 ⟨⟨[], 99⟩, 5, true⟩ = some (⟨TokenType.EOF, []⟩, s1) ∧
      s1.r.rest = []) ∧
    ∀ k : Nat, ∃ s1, scanN maxAlloc64 k ⟨⟨[], 99⟩, 5, true⟩ =
      some (List.replicate k ⟨TokenType.EOF, []⟩, s1) ∧ s1.r.rest = [] :=
  C5_idempotent_end_of_stream maxAlloc64 ⟨⟨[], 99⟩, 5, true⟩ rfl

/-- C6: illegal byte isolation. For every byte `b` that is not zero, not a space and not in
`'0'..'9'`, and every scanner state with `msglen = 0` or `ready = false` whose next byte is
`b`, `Scan` returns `ILLEGAL` with payload `[b]`, consumes exactly that byte and leaves
`msglen` and `ready` as they were. In particular a fresh scanner fed `"!"` returns
`ILLEGAL("!")` and then `EOF`. -/
theorem C6_illegal_byte_isolation (maxAlloc : Nat) (s : Scanner) (b : Nat) (t : List Nat)
    (hr : s.r.rest = b :: t) (hb0 : b ≠ 0) (hb32 : b ≠ 32) (hbd : ¬ (48 ≤ b ∧ b ≤ 57))
    (hst : s.msglen = 0 ∨ s.ready = false) :
    (∃ s1, s.Scan maxAlloc = some (⟨TokenType.ILLEGAL, [b]⟩, s1) ∧ s1.r.rest = t ∧
      s1.msglen = s.msglen ∧ s1.ready = s.ready) ∧
    (scanN maxAlloc64 2 (NewScanner [33])).map Prod.fst =
      some [⟨TokenType.ILLEGAL, [33]⟩, ⟨TokenType.EOF, []⟩] := by
  have hnz : ¬ (isNonZeroDigit b = true) := by rw [isNonZeroDigit_eq_true]; exact hbd
  have hg : ¬ (s.msglen > 0 ∧ s.ready = true) := by
    rintro ⟨g1, g2⟩
    rcases hst with h | h
    · omega
    · rw [h] at g2; cases g2
  rw [Scan_cons maxAlloc s b t hr, if_neg hnz, if_neg (by simpa [eof] using hb0),
    if_neg (by simpa [ws] using hb32), if_neg hg]
  exact ⟨⟨_, rfl, rfl, rfl, rfl⟩, by decide⟩

/-- Witness of C6: the byte `'!'` in a state that holds a length but does not await a payload. -/
theorem C6_illegal_byte_isolation_witness :
    (∃ s1, Scanner.Scan maxAlloc64 ⟨⟨[33, 97], -1⟩, 7, false⟩ =
        some (⟨TokenType.ILLEGAL, [33]⟩, s1) ∧ s1.r.rest = [97] ∧
      s1.msglen = 7 ∧ s1.ready = false) ∧
    (scanN maxAlloc64 2 (NewScanner [33])).map Prod.fst =
      some [⟨TokenType.ILLEGAL, [33]⟩, ⟨TokenType.EOF, []⟩] :=
  C6_illegal_byte_isolation maxAlloc64 ⟨⟨[33, 97], -1⟩, 7, false⟩ 33 [97] rfl (by decide)
    (by decide) (by decide) (Or.inr rfl)

/-- C7, at the failing input: digits only in a `MSGLEN` payload. On `"1/"` the `Scan` call on a
fresh scanner returns `MSGLEN` with payload `"1/"`: `isDigit` accepts the byte 47 (`'/'`), which
is not a decimal digit, and the length parsed from it is 0. -/
theorem C7_msglen_payload_with_slash :
    isDigit 47 = true ∧
    (NewScanner [49, 47]).Scan maxAlloc64 =
      some (⟨TokenType.MSGLEN, [49, 47]⟩,
        { r := { rest := [], lastByte := 47 }, msglen := 0, ready := false }) ∧
    ¬ (∀ c ∈ [49, 47], 48 ≤ c ∧ c ≤ 57) := by
  decide

/-- C8: exact byte count of a payload. Whenever `Scan` returns a `SYSLOGMSG` token, the
`msglen` held before the call is at least 1, the payload has exactly that length, it is the
next `msglen` bytes of the source in order, and the source has advanced by exactly these bytes:
what was unread before is the payload followed by what is unread after. -/
theorem C8_exact_byte_count (maxAlloc : Nat) (s s1 : Scanner) (tok : Token)
    (h : s.Scan maxAlloc = some (tok, s1)) (ht : tok.typ = TokenType.SYSLOGMSG) :
    1 ≤ s.msglen ∧ tok.lit.length = s.msglen ∧
    tok.lit = s.r.rest.take s.msglen ∧
    s.r.rest = tok.lit ++ s1.r.rest := by
  obtain ⟨hpos, -, -, h2, h3, -, -⟩ := Scan_syslogmsg_origin maxAlloc s s1 tok h ht
  refine ⟨hpos, h2, ?_, h3⟩
  rw [h3, ← h2]
  simp

/-- Witness of C8: two bytes declared, three bytes in the source. -/
theorem C8_exact_byte_count_witness :
    Scanner.Scan maxAlloc64 ⟨⟨[97, 98, 99], -1⟩, 2, true⟩ =
      some (⟨TokenType.SYSLOGMSG, [97, 98]⟩, ⟨⟨[99], 98⟩, 0, false⟩) ∧
    (1 ≤ 2 ∧ [97, 98].length = 2 ∧ [97, 98] = [97, 98, 99].take 2 ∧
      [97, 98, 99] = [97, 98] ++ [99]) :=
  ⟨by decide,
    C8_exact_byte_count maxAlloc64 ⟨⟨[97, 98, 99], -1⟩, 2, true⟩ ⟨⟨[99], 98⟩, 0, false⟩
      ⟨TokenType.SYSLOGMSG, [97, 98]⟩ (by decide) rfl⟩

/-- C9, at the failing input: state reset after a payload. After a complete payload
(`SYSLOGMSG`) `msglen` is 0 and `ready` is false, from every state; but on `"5 abc"` the third
`Scan` call returns `EOF` carrying `"abc"` and leaves `msglen = 5` and `ready = true`, where
the claim has 0 and false: the early return of `scanSyslogMsg` skips the reset. -/
theorem C9_no_reset_after_truncated_payload :
    (∀ (maxAlloc : Nat) (s s1 : Scanner) (tok : Token), s.Scan maxAlloc = some (tok, s1) →
      tok.typ = TokenType.SYSLOGMSG → s1.msglen = 0 ∧ s1.ready = false) ∧
    scanN maxAlloc64 3 (NewScanner [53, 32, 97, 98, 99]) =
      some ([⟨TokenType.MSGLEN, [53]⟩, ⟨TokenType.WS, [32]⟩, ⟨TokenType.EOF, [97, 98, 99]⟩],
        { r := { rest := [], lastByte := 99 }, msglen := 5, ready := true }) := by
  refine ⟨?_, by decide⟩
  intro maxAlloc s s1 tok h ht
  obtain ⟨-, -, -, -, -, h4, h5⟩ := Scan_syslogmsg_origin maxAlloc s s1 tok h ht
  exact ⟨h4, h5⟩

/-- C10, as stated, fails: `ready` implying `msglen > 0` in every reachable state. One `Scan`
call on a fresh scanner over `" "` returns `WS` and leaves `ready = true` with `msglen = 0`:
a separator sets `ready` whatever `msglen` is. -/
theorem C10_ready_with_zero_msglen_reachable :
    ¬ ∀ (input : List Nat) (k : Nat) (toks : List Token) (s1 : Scanner),
      scanN maxAlloc64 k (NewScanner input) = some (toks, s1) → s1.ready = true →
      s1.msglen > 0 := by
  intro h
  have h1 := h [32] 1 [⟨TokenType.WS, [32]⟩] ⟨⟨[], 32⟩, 0, true⟩ (by decide) rfl
  revert h1
  decide

/-- C10, amended: state invariant. In every scanner state reachable from a fresh scanner by any
number of `Scan` calls on any input, `ready = true` implies that one of the calls returned
`WS(" ")` and that no call after it returned `MSGLEN`, `SYSLOGMSG`, `WS` or `EOF` with empty
payload (`msglen` need not be positive). -/
theorem C10_ready_only_after_separator (maxAlloc : Nat) (input : List Nat) (k : Nat)
    (toks : List Token) (s1 : Scanner)
    (h : scanN maxAlloc k (NewScanner input) = some (toks, s1)) (hrd : s1.ready = true) :
    ∃ pre post, toks = pre ++ ⟨TokenType.WS, [32]⟩ :: post ∧
      ∀ t ∈ post, t.typ ≠ TokenType.MSGLEN ∧ t.typ ≠ TokenType.SYSLOGMSG ∧
        t.typ ≠ TokenType.WS ∧ t ≠ ⟨TokenType.EOF, []⟩ := by
  rcases scanN_ready_origin maxAlloc k (NewScanner input) s1 toks h hrd with ⟨hf, -⟩ | h2
  · cases hf
  · exact h2

/-- Witness of C10: `"7 !"` after two calls, the second of them returning `WS`. -/
theorem C10_ready_only_after_separator_witness :
    scanN maxAlloc64 2 (NewScanner [55, 32, 33]) =
      some ([⟨TokenType.MSGLEN, [55]⟩, ⟨TokenType.WS, [32]⟩], ⟨⟨[33], 32⟩, 7, true⟩) ∧
    ∃ pre post, ([⟨TokenType.MSGLEN, [55]⟩, ⟨TokenType.WS, [32]⟩] : List Token) =
        pre ++ ⟨TokenType.WS, [32]⟩ :: post ∧
      ∀ t ∈ post, t.typ ≠ TokenType.MSGLEN ∧ t.typ ≠ TokenType.SYSLOGMSG ∧
        t.typ ≠ TokenType.WS ∧ t ≠ ⟨TokenType.EOF, []⟩ :=
  ⟨by decide,
    C10_ready_only_after_separator maxAlloc64 [55, 32, 33] 2
      [⟨TokenType.MSGLEN, [55]⟩, ⟨TokenType.WS, [32]⟩] ⟨⟨[33], 32⟩, 7, true⟩ (by decide) rfl⟩

/-- C11: length parse. Whenever `Scan` returns a `MSGLEN` token whose payload is a string of
decimal digits `'0'..'9'` denoting a value below `2^64`, `msglen` after the call is that
value. -/
theorem C11_length_parse (maxAlloc : Nat) (s s1 : Scanner) (tok : Token)
    (h : s.Scan maxAlloc = some (tok, s1)) (ht : tok.typ = TokenType.MSGLEN)
    (hd : ∀ c ∈ tok.lit, 48 ≤ c ∧ c ≤ 57) (hv : decimalValue tok.lit 0 < 2 ^ 64) :
    s1.msglen = decimalValue tok.lit 0 := by
  rw [Scan_msglen_origin maxAlloc s s1 tok h ht]
  by_cases he : tok.lit = []
  · rw [he]; simp [ParseUint, decimalValue]
  · simp only [ParseUint, he, if_false]
    rw [parseUintLoop_digits tok.lit 0 hd hv]

/-- Witness of C11: the length `"120"` followed by a space. -/
theorem C11_length_parse_witness :
    (NewScanner [49, 50, 48, 32]).Scan maxAlloc64 =
      some (⟨TokenType.MSGLEN, [49, 50, 48]⟩, ⟨⟨[32], -1⟩, 120, false⟩) ∧
    120 = decimalValue [49, 50, 48] 0 :=
  ⟨by decide,
    C11_length_parse maxAlloc64 (NewScanner [49, 50, 48, 32]) ⟨⟨[32], -1⟩, 120, false⟩
      ⟨TokenType.MSGLEN, [49, 50, 48]⟩ (by decide) rfl (by decide) (by decide)⟩

/-- C12: zero declared length. With `msglen = 0` the payload scan `scanSyslogMsg` reads nothing:
the reader is left as it was and the token (a `SYSLOGMSG`) has an empty payload. -/
theorem C12_zero_declared_length (maxAlloc : Nat) (s : Scanner) (h : s.msglen = 0) :
    ∃ s1, s.scanSyslogMsg maxAlloc = some (⟨TokenType.SYSLOGMSG, []⟩, s1) ∧ s1.r = s.r := by
  rw [scanSyslogMsg_some maxAlloc s (by omega), h]
  exact ⟨_, rfl, rfl⟩

/-- Witness of C12: three unread bytes and no declared length. -/
theorem C12_zero_declared_length_witness :
    ∃ s1, Scanner.scanSyslogMsg maxAlloc64 ⟨⟨[97, 98, 99], -1⟩, 0, true⟩ =
      some (⟨TokenType.SYSLOGMSG, []⟩, s1) ∧ s1.r = ⟨[97, 98, 99], -1⟩ :=
  C12_zero_declared_length maxAlloc64 ⟨⟨[97, 98, 99], -1⟩, 0, true⟩ rfl

/-- C13, as stated, fails: `ILLEGAL` reachable from every state. In the state with `msglen = 5`
and `ready = true` no input at all makes `Scan` return `ILLEGAL`: the byte that would be
illegal starts a payload scan. -/
theorem C13_illegal_unreachable_when_awaiting_payload :
    ¬ ∀ (m : Nat) (rd : Bool) (lb : Int),
      ∃ (rest : List Nat) (tok : Token) (s1 : Scanner),
        Scanner.Scan maxAlloc64 ⟨⟨rest, lb⟩, m, rd⟩ = some (tok, s1) ∧
        tok.typ = TokenType.ILLEGAL := by
  intro h
  obtain ⟨rest, tok, s1, hr, ht⟩ := h 5 true (-1)
  exact Scan_not_illegal maxAlloc64 ⟨⟨rest, -1⟩, 5, true⟩ s1 tok (by show 0 < 5; omega) rfl hr ht

/-- C13, amended: `ILLEGAL` is reachable exactly from the states with `msglen = 0` or
`ready = false`. For every such state there is a next input byte (`'!'` is one, whatever
follows it) on which `Scan` returns `ILLEGAL`; in a state with `msglen > 0` and `ready = true`
no input gives `ILLEGAL`. -/
theorem C13_illegal_reachable_iff (maxAlloc m : Nat) (rd : Bool) (lb : Int) :
    ((∃ (rest : List Nat) (tok : Token) (s1 : Scanner),
        Scanner.Scan maxAlloc ⟨⟨rest, lb⟩, m, rd⟩ = some (tok, s1) ∧
        tok.typ = TokenType.ILLEGAL) ↔
      (m = 0 ∨ rd = false)) ∧
    ((m = 0 ∨ rd = false) →
      ∀ t : List Nat, ∃ s1, Scanner.Scan maxAlloc ⟨⟨33 :: t, lb⟩, m, rd⟩ =
        some (⟨TokenType.ILLEGAL, [33]⟩, s1)) := by
  have key : (m = 0 ∨ rd = false) →
      ∀ t : List Nat, ∃ s1, Scanner.Scan maxAlloc ⟨⟨33 :: t, lb⟩, m, rd⟩ =
        some (⟨TokenType.ILLEGAL, [33]⟩, s1) := by
    intro hst t
    have hg : ¬ (m > 0 ∧ rd = true) := by
      rintro ⟨g1, g2⟩
      rcases hst with h | h
      · omega
      · rw [h] at g2; cases g2
    rw [Scan_cons maxAlloc ⟨⟨33 :: t, lb⟩, m, rd⟩ 33 t rfl]
    exact ⟨{ r := { rest := t, lastByte := 33 }, msglen := m, ready := rd },
      by simp [isNonZeroDigit, eof, ws, hg]⟩
  refine ⟨⟨?_, ?_⟩, key⟩
  · rintro ⟨rest, tok, s1, hr, ht⟩
    by_contra hc
    have hm : 0 < m := by
      rcases Nat.eq_zero_or_pos m with h0 | h0
      · exact absurd (Or.inl h0) hc
      · exact h0
    have hrd : rd = true := by
      cases rd
      · exact absurd (Or.inr rfl) hc
      · rfl
    exact Scan_not_illegal maxAlloc ⟨⟨rest, lb⟩, m, rd⟩ s1 tok hm hrd hr ht
  · intro hst
    obtain ⟨s1, h1⟩ := key hst []
    exact ⟨[33], _, s1, h1, rfl⟩

/-- C14, as stated, fails: well-formed stream tokenization for every length below `2^64`. One
message of length `2^48 + 1` with `2^48 + 1` bytes `'a'` as payload is well formed, but the
third `Scan` call panics in the allocation of the payload buffer, so the tokens of the message
are not returned. -/
theorem C14_oversize_message_panics :
    ¬ ∀ msgs : List (Nat × List Nat),
      (∀ m ∈ msgs, 1 ≤ m.1 ∧ m.1 < 2 ^ 64 ∧ m.2.length = m.1 ∧ (∀ b ∈ m.2, b ≠ 0) ∧
        (∀ b, m.2.head? = some b → b ≠ 32 ∧ ¬ (48 ≤ b ∧ b ≤ 57))) →
      (scanN maxAlloc64 (3 * msgs.length + 1) (NewScanner (encodeMessages msgs))).map Prod.fst =
        some (messageTokens msgs ++ [⟨TokenType.EOF, []⟩]) := by
  intro h
  obtain ⟨hwf, hnone⟩ := scanN_oversize_message maxAlloc64 (2 ^ 48) (by decide) (by decide)
  have h1 := h [(2 ^ 48 + 1, 97 :: List.replicate (2 ^ 48) 97)] hwf
  have e : 3 * [(2 ^ 48 + 1, 97 :: List.replicate (2 ^ 48) 97)].length + 1 = 3 + 1 := rfl
  rw [e, hnone] at h1
  cases h1

/-- C14, amended: well-formed stream tokenization. For every finite list of messages `(n, c)`
with `1 <= n < 2^64`, `n` within the allocation bound `maxAlloc`, `c` of length `n`, no zero
byte in `c` and the first byte of `c` neither a space nor one of `'0'..'9'`, the `Scan` calls on
a fresh scanner over the concatenation of all `"{n} {c}"` return, for each message in order,
`MSGLEN("{n}")`, `WS(" ")`, `SYSLOGMSG(c)`, then `EOF` with empty payload, and end with
`msglen = 0` and `ready = false`. -/
theorem C14_well_formed_stream (maxAlloc : Nat) (msgs : List (Nat × List Nat))
    (h : ∀ m ∈ msgs, 1 ≤ m.1 ∧ m.1 < 2 ^ 64 ∧ m.1 ≤ maxAlloc ∧ m.2.length = m.1 ∧
      (∀ b ∈ m.2, b ≠ 0) ∧ (∀ b, m.2.head? = some b → b ≠ 32 ∧ ¬ (48 ≤ b ∧ b ≤ 57))) :
    ∃ s1, scanN maxAlloc (3 * msgs.length + 1) (NewScanner (encodeMessages msgs)) =
        some (messageTokens msgs ++ [⟨TokenType.EOF, []⟩], s1) ∧
      s1.msglen = 0 ∧ s1.ready = false := by
  obtain ⟨lb, e⟩ := scanN_messages maxAlloc msgs (NewScanner (encodeMessages msgs)) h rfl rfl rfl
  rw [scanN_succ_tokens maxAlloc _ _ _ _ e, Scan_nil maxAlloc _ rfl]
  exact ⟨_, rfl, rfl, rfl⟩

/-- Witness of C14: the stream `"1 a2 hi"`. -/
theorem C14_well_formed_stream_witness :
    ∃ s1, scanN maxAlloc64 (3 * [(1, [97]), (2, [104, 105])].length + 1)
        (NewScanner (encodeMessages [(1, [97]), (2, [104, 105])])) =
        some (messageTokens [(1, [97]), (2, [104, 105])] ++ [⟨TokenType.EOF, []⟩], s1) ∧
      s1.msglen = 0 ∧ s1.ready = false :=
  C14_well_formed_stream maxAlloc64 [(1, [97]), (2, [104, 105])] (by decide)

/-- C15, as stated, fails: lossless tokenization of every input without a zero byte. On
`"18446744073709551616 a"` the third `Scan` call panics in the allocation of the payload
buffer, so no `EOF` token is ever returned and the byte `"a"` is in no token. -/
theorem C15_oversize_length_loses_input :
    ¬ ∀ input : List Nat, (∀ b ∈ input, b ≠ 0) →
      ∃ (k : Nat) (toks : List Token) (s2 : Scanner),
        scanN maxAlloc64 (k + 1) (NewScanner input) = some (toks ++ [⟨TokenType.EOF, []⟩], s2) ∧
        payloads toks = input := by
  intro h
  obtain ⟨k, toks, s2, h1, -⟩ := h
    [49, 56, 52, 52, 54, 55, 52, 52, 48, 55, 51, 55, 48, 57, 53, 53, 49, 54, 49, 54, 32, 97]
    (by decide)
  have e3 : scanN maxAlloc64 3 (NewScanner
    [49, 56, 52, 52, 54, 55, 52, 52, 48, 55, 51, 55, 48, 57, 53, 53, 49, 54, 49, 54, 32, 97]) =
    none := by decide
  have hl : ∀ (a : Token) (l ts : List Token), l ++ [a] = ts ++ [⟨TokenType.EOF, []⟩] →
      a = ⟨TokenType.EOF, []⟩ := by
    intro a l ts hh
    have := congrArg List.getLast? hh
    simpa using this
  rcases k with _ | _ | k
  · have e1 : scanN maxAlloc64 (0 + 1) (NewScanner
      [49, 56, 52, 52, 54, 55, 52, 52, 48, 55, 51, 55, 48, 57, 53, 53, 49, 54, 49, 54, 32, 97]) =
      some ([] ++ [⟨TokenType.MSGLEN,
        [49, 56, 52, 52, 54, 55, 52, 52, 48, 55, 51, 55, 48, 57, 53, 53, 49, 54, 49, 54]⟩],
        ⟨⟨[32, 97], -1⟩, 18446744073709551615, false⟩) := by decide
    rw [e1] at h1
    simp only [Option.some.injEq, Prod.mk.injEq] at h1
    have := hl _ _ _ h1.1
    revert this
    decide
  · have e2 : scanN maxAlloc64 (0 + 1 + 1) (NewScanner
      [49, 56, 52, 52, 54, 55, 52, 52, 48, 55, 51, 55, 48, 57, 53, 53, 49, 54, 49, 54, 32, 97]) =
      some ([⟨TokenType.MSGLEN,
        [49, 56, 52, 52, 54, 55, 52, 52, 48, 55, 51, 55, 48, 57, 53, 53, 49, 54, 49, 54]⟩] ++
        [⟨TokenType.WS, [32]⟩],
        ⟨⟨[97], 32⟩, 18446744073709551615, true⟩) := by decide
    rw [e2] at h1
    simp only [Option.some.injEq, Prod.mk.injEq] at h1
    have := hl _ _ _ h1.1
    revert this
    decide
  · have e : k + 1 + 1 + 1 = 3 + k := by omega
    rw [e, scanN_add_none maxAlloc64 3 k _ e3] at h1
    cases h1

/-- C15, amended: lossless tokenization. For every finite input without a zero byte, whenever
`k` `Scan` calls on a fresh scanner return, the payloads of their tokens followed by the bytes
still unread are the input byte for byte; and when none of the first `L + 1` calls panics in
the allocation of a payload buffer (`L` the length of the input), the calls return, after some
`k <= L` tokens none of which is `EOF` with empty payload, the token `EOF` with empty payload,
and the payloads of these `k` tokens, one after the other, are the input byte for byte. -/
theorem C15_lossless_tokenization (maxAlloc : Nat) (input : List Nat)
    (hz : ∀ b ∈ input, b ≠ 0) :
    (∀ (k : Nat) (toks : List Token) (s1 : Scanner),
      scanN maxAlloc k (NewScanner input) = some (toks, s1) →
      input = payloads toks ++ s1.r.rest) ∧
    (scanN maxAlloc (input.length + 1) (NewScanner input) ≠ none →
      ∃ (k : Nat) (toks : List Token) (s1 s2 : Scanner), k ≤ input.length ∧
        scanN maxAlloc k (NewScanner input) = some (toks, s1) ∧
        (∀ t ∈ toks, t ≠ ⟨TokenType.EOF, []⟩) ∧
        scanN maxAlloc (k + 1) (NewScanner input) = some (toks ++ [⟨TokenType.EOF, []⟩], s2) ∧
        payloads toks = input) := by
  refine ⟨fun k toks s1 h => scanN_payloads maxAlloc k (NewScanner input) s1 toks hz h, ?_⟩
  intro hnp
  obtain ⟨k, toks, s1, hk, hs, hall, hex, hpay⟩ :=
    scanN_lossless maxAlloc input.length (NewScanner input) (Nat.le_refl _) hz hnp
  refine ⟨k, toks, s1, { s1 with ready := false }, hk, hs, hall, ?_, hpay⟩
  rw [scanN_succ_tokens maxAlloc k _ s1 toks hs, Scan_nil maxAlloc s1 hex]
  rfl

/-- Witness of C15: the malformed input `"05/ x!"`, on which no call panics. -/
theorem C15_lossless_tokenization_witness :
    (∀ (k : Nat) (toks : List Token) (s1 : Scanner),
      scanN maxAlloc64 k (NewScanner [48, 53, 47, 32, 120, 33]) = some (toks, s1) →
      [48, 53, 47, 32, 120, 33] = payloads toks ++ s1.r.rest) ∧
    ∃ (k : Nat) (toks : List Token) (s1 s2 : Scanner), k ≤ [48, 53, 47, 32, 120, 33].length ∧
      scanN maxAlloc64 k (NewScanner [48, 53, 47, 32, 120, 33]) = some (toks, s1) ∧
      (∀ t ∈ toks, t ≠ ⟨TokenType.EOF, []⟩) ∧
      scanN maxAlloc64 (k + 1) (NewScanner [48, 53, 47, 32, 120, 33]) =
        some (toks ++ [⟨TokenType.EOF, []⟩], s2) ∧
      payloads toks = [48, 53, 47, 32, 120, 33] :=
  ⟨(C15_lossless_tokenization maxAlloc64 [48, 53, 47, 32, 120, 33] (by decide)).1,
    (C15_lossless_tokenization maxAlloc64 [48, 53, 47, 32, 120, 33] (by decide)).2 (by decide)⟩

/-- C16: a zero byte is taken as end-of-stream. On `"3 a\x00c"` a fresh scanner returns
`MSGLEN("3")`, `WS(" ")` and `EOF` carrying `"a"` while the byte `"c"` is still unread, and the
next call returns a token carrying `"c"`. -/
theorem C16_zero_byte_taken_as_end_of_stream :
    scanN maxAlloc64 3 (NewScanner [51, 32, 97, 0, 99]) =
      some ([⟨TokenType.MSGLEN, [51]⟩, ⟨TokenType.WS, [32]⟩, ⟨TokenType.EOF, [97]⟩],
        { r := { rest := [99], lastByte := 0 }, msglen := 3, ready := true }) ∧
    Scanner.Scan maxAlloc64 ⟨⟨[99], 0⟩, 3, true⟩ =
      some (⟨TokenType.EOF, [99]⟩, ⟨⟨[], 99⟩, 3, true⟩) ∧
    (scanN maxAlloc64 4 (NewScanner [51, 32, 97, 0, 99])).map Prod.fst =
      some [⟨TokenType.MSGLEN, [51]⟩, ⟨TokenType.WS, [32]⟩, ⟨TokenType.EOF, [97]⟩,
       ⟨TokenType.EOF, [99]⟩] := by
  decide

/-- C17, as stated, fails: progress from any state and exhaustion after `L` calls. On
`"18446744073709551616 a"` (22 bytes) the first two `Scan` calls return `MSGLEN` and `WS`; the
third, with the byte `"a"` left, panics in the allocation of the payload buffer: it returns no
token and consumes nothing, so the source is never exhausted and no call returns `EOF`. -/
theorem C17_oversize_length_stops_progress :
    scanN maxAlloc64 2 (NewScanner
      [49, 56, 52, 52, 54, 55, 52, 52, 48, 55, 51, 55, 48, 57, 53, 53, 49, 54, 49, 54, 32, 97]) =
      some ([⟨TokenType.MSGLEN,
          [49, 56, 52, 52, 54, 55, 52, 52, 48, 55, 51, 55, 48, 57, 53, 53, 49, 54, 49, 54]⟩,
        ⟨TokenType.WS, [32]⟩],
        { r := { rest := [97], lastByte := 32 }, msglen := 18446744073709551615,
          ready := true }) ∧
    ¬ (∀ s : Scanner, s.r.rest ≠ [] →
      ∃ (tok : Token) (s1 : Scanner), s.Scan maxAlloc64 = some (tok, s1) ∧
        s1.r.rest.length < s.r.rest.length) ∧
    ¬ (∀ input : List Nat, ∃ (toks : List Token) (s1 : Scanner),
      scanN maxAlloc64 (input.length + 1) (NewScanner input) = some (toks, s1) ∧
        toks.getLast? = some ⟨TokenType.EOF, []⟩) := by
  refine ⟨by decide, ?_, ?_⟩
  · intro h
    obtain ⟨tok, s1, h1, -⟩ := h ⟨⟨[97], 32⟩, 18446744073709551615, true⟩ (by decide)
    have e : Scanner.Scan maxAlloc64 ⟨⟨[97], 32⟩, 18446744073709551615, true⟩ = none := by
      decide
    rw [e] at h1
    cases h1
  · intro h
    obtain ⟨toks, s1, h1, -⟩ := h
      [49, 56, 52, 52, 54, 55, 52, 52, 48, 55, 51, 55, 48, 57, 53, 53, 49, 54, 49, 54, 32, 97]
    have e : scanN maxAlloc64
        ([49, 56, 52, 52, 54, 55, 52, 52, 48, 55, 51, 55, 48, 57, 53, 53, 49, 54, 49, 54, 32,
          97].length + 1)
        (NewScanner
          [49, 56, 52, 52, 54, 55, 52, 52, 48, 55, 51, 55, 48, 57, 53, 53, 49, 54, 49, 54, 32,
            97]) = none := by
      decide
    rw [e] at h1
    cases h1

/-- C17, amended: progress and termination. `Scan` always terminates (the counter of the length
loop never runs out): it returns a token, or it panics in the allocation of the payload buffer,
which happens exactly when it starts a payload scan with `msglen` above the allocation bound.
A call that returns leaves unread what was unread before less what it consumed, and on a source
with a byte left it consumes at least one byte, from any state; so on an input of `L` bytes,
when the first `L` calls return, the source is exhausted after them and call `L+1` returns
`EOF` with empty payload. -/
theorem C17_progress_and_termination (maxAlloc : Nat) (s : Scanner) (input : List Nat) :
    (∀ (fuel : Nat) (buf : List Nat), s.r.rest.length < fuel →
      Scanner.scanMsgLenLoop fuel s buf =
        Scanner.scanMsgLenLoop (s.r.rest.length + 1) s buf) ∧
    (s.Scan maxAlloc = none ↔
      ∃ b t, s.r.rest = b :: t ∧ isNonZeroDigit b = false ∧ b ≠ 0 ∧ b ≠ 32 ∧
        s.ready = true ∧ maxAlloc < s.msglen) ∧
    (∀ (tok : Token) (s1 : Scanner), s.Scan maxAlloc = some (tok, s1) →
      (∃ consumed, s.r.rest = consumed ++ s1.r.rest ∧ (s.r.rest ≠ [] → consumed ≠ [])) ∧
      s1.r.rest.length ≤ s.r.rest.length ∧
      (s.r.rest ≠ [] → s1.r.rest.length < s.r.rest.length)) ∧
    (∀ (toks : List Token) (s1 : Scanner),
      scanN maxAlloc input.length (NewScanner input) = some (toks, s1) →
      s1.r.rest = [] ∧
      s1.Scan maxAlloc = some (⟨TokenType.EOF, []⟩, { s1 with ready := false }) ∧
      scanN maxAlloc (input.length + 1) (NewScanner input) =
        some (toks ++ [⟨TokenType.EOF, []⟩], { s1 with ready := false })) := by
  refine ⟨fun fuel buf hf => scanMsgLenLoop_fuel fuel s buf hf, Scan_none_iff maxAlloc s, ?_, ?_⟩
  · intro tok s1 h
    refine ⟨?_, ?_, Scan_progress maxAlloc s s1 tok h⟩
    · by_cases he : s.r.rest = []
      · refine ⟨[], ?_, fun hc => absurd he hc⟩
        rw [Scan_nil maxAlloc s he] at h
        simp only [Option.some.injEq, Prod.mk.injEq] at h
        rw [← h.2]
        simp [he]
      · rcases Scan_consumed maxAlloc s s1 tok h he with ⟨h1, h2⟩ | h2
        · exact ⟨tok.lit, h2, fun _ => h1⟩
        · exact ⟨tok.lit ++ [0], by rw [h2]; simp, fun _ => by simp⟩
    · by_cases he : s.r.rest = []
      · rw [Scan_nil maxAlloc s he] at h
        simp only [Option.some.injEq, Prod.mk.injEq] at h
        rw [← h.2]
      · exact Nat.le_of_lt (Scan_progress maxAlloc s s1 tok h he)
  · intro toks s1 h
    have hex := scanN_exhausts maxAlloc input.length (NewScanner input) s1 toks h (Nat.le_refl _)
    refine ⟨hex, Scan_nil maxAlloc s1 hex, ?_⟩
    rw [scanN_succ_tokens maxAlloc _ _ s1 toks h, Scan_nil maxAlloc s1 hex]
    rfl

/-- C18, at the failing input: `isDigit` as the test for `'0'..'9'`. The code's `isDigit` is
true exactly for the bytes 47 to 57, so it is true for 47 (`'/'`), which is not in `'0'..'9'`. -/
theorem C18_isDigit_accepts_slash :
    (∀ ch : Nat, isDigit ch = true ↔ 47 ≤ ch ∧ ch ≤ 57) ∧
    isDigit 47 = true ∧ ¬ (48 ≤ 47 ∧ 47 ≤ 57) ∧
    ¬ (∀ ch : Nat, ch < 256 → (isDigit ch = true ↔ 48 ≤ ch ∧ ch ≤ 57)) := by
  refine ⟨fun ch => by simp [isDigit], by decide, by decide, ?_⟩
  intro h
  have h1 := (h 47 (by decide)).mp (by decide)
  omega

/-- C19, at the failing input: `isNonZeroDigit` as the test for `'1'..'9'`. The code's
`isNonZeroDigit` is true exactly for the bytes 48 to 57, so it is true for 48 (`'0'`), which is
not in `'1'..'9'`. -/
theorem C19_isNonZeroDigit_accepts_zero :
    (∀ ch : Nat, isNonZeroDigit ch = true ↔ 48 ≤ ch ∧ ch ≤ 57) ∧
    isNonZeroDigit 48 = true ∧ ¬ (49 ≤ 48 ∧ 48 ≤ 57) ∧
    ¬ (∀ ch : Nat, ch < 256 → (isNonZeroDigit ch = true ↔ 49 ≤ ch ∧ ch ≤ 57)) := by
  refine ⟨fun ch => by simp [isNonZeroDigit], by decide, by decide, ?_⟩
  intro h
  have h1 := (h 48 (by decide)).mp (by decide)
  omega

end Rfc5425
